import Mathlib

/-!
Verification development for the `lps_crawler` repository (EPG crawlers).

Shallow embedding conventions:
* Strings are `List Char` (converted from Lean `String` literals via `cl`).
* A Python `datetime` in the fixed Asia/Ho_Chi_Minh zone is a `Nat`: minutes
  since midnight of an arbitrary reference day, so a calendar date is the
  quotient by 1440 and `timedelta(days=1)` is `+ 1440`.  `datetime.combine(d, time(hh, mm))`
  is `d * 1440 + hh * 60 + mm` and `dt.date()` is `dt / 1440`.
* Python regexes used by the scripts are modelled as executable scanners with
  the same leftmost-match, backtracking and word-boundary semantics.
  Python's Unicode `\w` is approximated by treating every non-ASCII codepoint
  as a word character; the only non-ASCII characters relevant to this
  repository are Vietnamese letters, which are word characters in Python.
* Python `str.lower()` is modelled as ASCII lowercasing; the Vietnamese
  letters appearing in the modelled literals are already lowercase.
-/

namespace LpsCrawler

/-! ## Character classes -/

/-- Shorthand: the character list of a string literal. -/
def cl (s : String) : List Char := s.data

/-- Membership of a character's codepoint in a closed interval; used to model
regex character classes over ASCII. -/
def inRangeC (c : Char) (lo hi : Nat) : Bool :=
  lo ≤ c.toNat && c.toNat ≤ hi

/-- Regex `\d` (ASCII decimal digit, codepoints 48–57). -/
def isDig (c : Char) : Bool := inRangeC c 48 57

/-- Numeric value of a digit character (int() of one digit). -/
def digVal (c : Char) : Nat := c.toNat - 48

/-- Regex `\w`: ASCII alphanumerics and underscore, plus any non-ASCII
codepoint (see the header note on Unicode `\w`). -/
def isWordChar (c : Char) : Bool :=
  inRangeC c 48 57 || inRangeC c 65 90 || inRangeC c 97 122 || c = '_' || 128 ≤ c.toNat

/-- Regex `\s` / `str.strip` whitespace (the ASCII whitespace characters). -/
def isSpc (c : Char) : Bool :=
  c = ' ' || c = '\t' || c = '\n' || c = '\r' || c = '\x0b' || c = '\x0c'

/-- Python `str.lower()` restricted to ASCII (see header note). -/
def lowerChar (c : Char) : Char :=
  if inRangeC c 65 90 then Char.ofNat (c.toNat + 32) else c

def lowerStr (l : List Char) : List Char := l.map lowerChar

/-- `str.lstrip()`. -/
def trimL : List Char → List Char
  | [] => []
  | c :: cs => if isSpc c then trimL cs else c :: cs

/-- `str.strip()`. -/
def trimBoth (l : List Char) : List Char :=
  (trimL (trimL l.reverse).reverse)

/-- True when the list is empty or starts with a non-word character: the
trailing `\b` condition of a match that ends in a word character. -/
def nonWordHead : List Char → Bool
  | [] => true
  | c :: _ => !isWordChar c

/-! ## TIME_RE (boomerang.py line 33): `\b([01]?\d|2[0-3])[:.][0-5]\d\b` -/

/-- The `[:.][0-5]\d\b` tail of TIME_RE: separator, minute characters, minute
value, and the remaining input. -/
def sepMinOk : List Char → Option (Char × Char × Char × Nat × List Char)
  | s :: a :: b :: rest =>
    if (s = ':' || s = '.') && inRangeC a 48 53 && isDig b && nonWordHead rest then
      some (s, a, b, 10 * digVal a + digVal b, rest)
    else none
  | _ => none

/-- Result of a TIME_RE search: input split around the raw match, raw token
characters, and the parsed hour/minute (the scripts re-parse the token with
`int`, which yields exactly these values). -/
structure TimeMatch where
  pre : List Char
  tok : List Char
  hh : Nat
  mm : Nat
  post : List Char
deriving DecidableEq

/-- TIME_RE's first hour alternative `[01]\d` (two digits) followed by the
separator/minute tail. -/
def timeAlt2 (a b : Char) (rest : List Char) : Option (List Char × Nat × Nat × List Char) :=
  if inRangeC a 48 49 && isDig b then
    match sepMinOk rest with
    | some (s, m1, m2, mm, post) =>
      some ([a, b, s, m1, m2], 10 * digVal a + digVal b, mm, post)
    | none => none
  else none

/-- TIME_RE's `[01]?\d` alternative with the optional digit absent (one-digit
hour). -/
def timeAlt1 (a : Char) (tail : List Char) : Option (List Char × Nat × Nat × List Char) :=
  if isDig a then
    match sepMinOk tail with
    | some (s, m1, m2, mm, post) => some ([a, s, m1, m2], digVal a, mm, post)
    | none => none
  else none

/-- TIME_RE's second hour alternative `2[0-3]`. -/
def timeAlt3 (a b : Char) (rest : List Char) : Option (List Char × Nat × Nat × List Char) :=
  if a = '2' && inRangeC b 48 51 then
    match sepMinOk rest with
    | some (s, m1, m2, mm, post) =>
      some ([a, b, s, m1, m2], 20 + digVal b, mm, post)
    | none => none
  else none

/-- TIME_RE attempted at the head of the input (the leading `\b` is checked
by the scanner).  Alternatives in the regex's backtracking order: two-digit
`[01]\d`, one-digit `\d`, then `2[0-3]`. -/
def timeAtHead (cs : List Char) : Option (List Char × Nat × Nat × List Char) :=
  match cs with
  | a :: b :: rest =>
    match timeAlt2 a b rest with
    | some r => some r
    | none =>
      match timeAlt1 a (b :: rest) with
      | some r => some r
      | none => timeAlt3 a b rest
  | _ => none

/-- Leftmost TIME_RE match.  A match can start only at a word boundary; the
first matched character is a digit (a word character), so the boundary holds
exactly when the previous character is absent or not a word character. -/
def timeSearchGo : List Char → Bool → List Char → Option TimeMatch
  | _, _, [] => none
  | pre, prevWord, c :: cs =>
    match (if prevWord then none else timeAtHead (c :: cs)) with
    | some (tok, hh, mm, post) => some ⟨pre.reverse, tok, hh, mm, post⟩
    | none => timeSearchGo (c :: pre) (isWordChar c) cs

/-- `TIME_RE.search`. -/
def timeSearch (l : List Char) : Option TimeMatch := timeSearchGo [] false l

/-- The `.replace(".", ":")` the scripts apply to a TIME_RE token. -/
def normTok (l : List Char) : List Char :=
  l.map (fun c => if c = '.' then ':' else c)

/-! ## DUR_HHMM_RE (line 34): `(\d{1,2})[:.](\d{2})` -/

/-- The `[:.](\d{2})` tail: minute value and rest. -/
def durSepOk : List Char → Option Nat
  | s :: a :: b :: _ =>
    if (s = ':' || s = '.') && isDig a && isDig b then some (10 * digVal a + digVal b)
    else none
  | _ => none

/-- DUR_HHMM_RE attempted at the head: greedy two-digit group first, then
one digit.  No word boundaries in this regex. -/
def durHHMMAtHead : List Char → Option (Nat × Nat)
  | a :: b :: rest =>
    if isDig a then
      if isDig b then
        match durSepOk rest with
        | some mm => some (10 * digVal a + digVal b, mm)
        | none =>
          match durSepOk (b :: rest) with
          | some mm => some (digVal a, mm)
          | none => none
      else
        match durSepOk (b :: rest) with
        | some mm => some (digVal a, mm)
        | none => none
    else none
  | _ => none

/-- `DUR_HHMM_RE.search`: leftmost match, returning the two captured values. -/
def durHHMMFirst : List Char → Option (Nat × Nat)
  | [] => none
  | c :: cs =>
    match durHHMMAtHead (c :: cs) with
    | some r => some r
    | none => durHHMMFirst cs

/-! ## DUR_MIN_RE (line 35): `(\d{1,3})\s*(?:ph|phút|min)?` (re.I)

The optional suffix and `\s*` cannot fail, so the captured group is simply
the run of up to three digits (greedy) at the leftmost digit position. -/

def durMinFirst : List Char → Option Nat
  | [] => none
  | c :: cs =>
    if isDig c then
      match cs with
      | d :: rest2 =>
        if isDig d then
          match rest2 with
          | e :: _ =>
            if isDig e then some (100 * digVal c + 10 * digVal d + digVal e)
            else some (10 * digVal c + digVal d)
          | [] => some (10 * digVal c + digVal d)
        else some (digVal c)
      | [] => some (digVal c)
    else durMinFirst cs

/-! ## craw1.py time-token regex: `(\d{1,2}[:h\.]\d{2})` (no boundaries) -/

/-- The `[:h.]\d{2}` tail, keeping the raw characters. -/
def tokSepOk : List Char → Option (Char × Char × Char × List Char)
  | s :: a :: b :: rest =>
    if (s = ':' || s = 'h' || s = '.') && isDig a && isDig b then some (s, a, b, rest)
    else none
  | _ => none

/-- `\d{1,2}[:h.]\d{2}` attempted at the head, greedy hour first. -/
def timeTokAtHead : List Char → Option (List Char × List Char)
  | a :: b :: rest =>
    if isDig a then
      if isDig b then
        match tokSepOk rest with
        | some (s, x, y, post) => some ([a, b, s, x, y], post)
        | none =>
          match tokSepOk (b :: rest) with
          | some (s, x, y, post) => some ([a, s, x, y], post)
          | none => none
      else
        match tokSepOk (b :: rest) with
        | some (s, x, y, post) => some ([a, s, x, y], post)
        | none => none
    else none
  | _ => none

/-- Leftmost `\d{1,2}[:h.]\d{2}` match (the raw `group(1)` text). -/
def timeTokFirst : List Char → Option (List Char)
  | [] => none
  | c :: cs =>
    match timeTokAtHead (c :: cs) with
    | some (tok, _) => some tok
    | none => timeTokFirst cs

/-- The `.replace("h", ":").replace(".", ":")` of craw1.py. -/
def replSep (l : List Char) : List Char :=
  l.map (fun c => if c = 'h' || c = '.' then ':' else c)

/-! ## `\d{1,2}:\d{2}` (parse_time_from_text, craw1.py line 119) -/

def hmSepOk : List Char → Option Nat
  | ':' :: a :: b :: _ =>
    if isDig a && isDig b then some (10 * digVal a + digVal b) else none
  | _ => none

def hmAtHead : List Char → Option (Nat × Nat)
  | a :: b :: rest =>
    if isDig a then
      if isDig b then
        match hmSepOk rest with
        | some mm => some (10 * digVal a + digVal b, mm)
        | none =>
          match hmSepOk (b :: rest) with
          | some mm => some (digVal a, mm)
          | none => none
      else
        match hmSepOk (b :: rest) with
        | some mm => some (digVal a, mm)
        | none => none
    else none
  | _ => none

def hmFirst : List Char → Option (Nat × Nat)
  | [] => none
  | c :: cs =>
    match hmAtHead (c :: cs) with
    | some r => some r
    | none => hmFirst cs

/-- `parse_time_from_text(base_date, txt)` (craw1.py lines 116–130): strip,
replace `h` and `.` by `:`, find `\d{1,2}:\d{2}`, and build the instant with
`dateutil`.  `dateutil.parser` accepts a bare `H:MM` exactly when the hour is
below 24 and the minute below 60, raising otherwise (the `except` branch
returns `None`).  The branch that feeds the whole text to `dateutil` when no
`H:MM` token is present is unreachable from the call sites modelled here
(every argument passed in contains such a token) and is modelled as `none`. -/
def parseTimeFromText (baseDay : Nat) (txt : List Char) : Option Nat :=
  match hmFirst (replSep (trimBoth txt)) with
  | some (hh, mm) =>
    if hh < 24 && mm < 60 then some (baseDay * 1440 + hh * 60 + mm) else none
  | none => none

/-! ## Plain string helpers -/

/-- Substring test (`pat in s` for Python strings). -/
def containsSub : List Char → List Char → Bool
  | l, pat =>
    match l with
    | [] => pat.isEmpty
    | _ :: tl => pat.isPrefixOf l || containsSub tl pat

/-- `re.sub(re.escape(pat), "", l)` for a non-empty literal `pat`: removes
every (non-overlapping, leftmost-first) occurrence.  The first argument is
recursion fuel, instantiated with the input length (an upper bound on the
number of steps), keeping the recursion structural so that it evaluates
inside the kernel. -/
def removeAllTokF (pat : List Char) : Nat → List Char → List Char
  | 0, l => l
  | _, [] => []
  | fuel + 1, c :: cs =>
    if !pat.isEmpty && pat.isPrefixOf (c :: cs) then
      removeAllTokF pat fuel (cs.drop (pat.length - 1))
    else c :: removeAllTokF pat fuel cs

def removeAllTok (pat l : List Char) : List Char := removeAllTokF pat l.length l

/-- Length of a `https?://\S+` match at the head of the input, if any. -/
def urlAtHead (l : List Char) : Option Nat :=
  let tail : List Char → Option (Nat × List Char) := fun r =>
    match r with
    | 's' :: ':' :: '/' :: '/' :: rest => some (8, rest)
    | ':' :: '/' :: '/' :: rest => some (7, rest)
    | _ => none
  match l with
  | 'h' :: 't' :: 't' :: 'p' :: r =>
    match tail r with
    | some (n, rest) =>
      let run := rest.takeWhile (fun c => !isSpc c)
      if run.isEmpty then none else some (n + run.length)
    | none => none
  | _ => none

/-- `re.sub(r'https?://\S+', '', l)`; fuel as in `removeAllTokF`. -/
def removeUrlsF : Nat → List Char → List Char
  | 0, l => l
  | _, [] => []
  | fuel + 1, c :: cs =>
    match urlAtHead (c :: cs) with
    | some n => removeUrlsF fuel (cs.drop (n - 1))
    | none => c :: removeUrlsF fuel cs

def removeUrls (l : List Char) : List Char := removeUrlsF l.length l

/-- `re.sub(r'https?://\S+', '', l).strip()`, the title/desc cleanup used by
boomerang.py (lines 151–152, 296–297, 356). -/
def stripUrlTrim (l : List Char) : List Char := trimBoth (removeUrls l)

/-- `re.sub(r'\s+', ' ', l)`: collapse whitespace runs to single spaces.  The
flag records whether the scanner is inside a run whose space was emitted. -/
def collapseWsGo : Bool → List Char → List Char
  | _, [] => []
  | false, c :: cs =>
    if isSpc c then ' ' :: collapseWsGo true cs else c :: collapseWsGo false cs
  | true, c :: cs =>
    if isSpc c then collapseWsGo true cs else c :: collapseWsGo false cs

def collapseWs (l : List Char) : List Char := collapseWsGo false l

/-- `str.split()` (split on whitespace runs, dropping empties); accumulator
holds the current token reversed. -/
def wsTokensGo : List Char → List Char → List (List Char)
  | acc, [] => if acc.isEmpty then [] else [acc.reverse]
  | acc, c :: cs =>
    if isSpc c then
      if acc.isEmpty then wsTokensGo [] cs else acc.reverse :: wsTokensGo [] cs
    else wsTokensGo (c :: acc) cs

def wsTokens (l : List Char) : List (List Char) := wsTokensGo [] l

/-- `" ".join(parts)`. -/
def joinSpace (ll : List (List Char)) : List Char := List.intercalate (cl " ") ll

/-- Split on `'|'` keeping empty segments; accumulator reversed. -/
def splitPipeGo : List Char → List Char → List (List Char)
  | acc, [] => [acc.reverse]
  | acc, c :: cs =>
    if c = '|' then acc.reverse :: splitPipeGo [] cs else splitPipeGo (c :: acc) cs

/-- `PIPE_SPLIT_RE.split(ln)` followed by per-part `strip()` and the filter
dropping empty parts (boomerang.py lines 254–255).  `re.split(r'\s*\|\s*')`
followed by `strip()` of each part is equivalent to splitting on `'|'` and
stripping each segment. -/
def pipeParts (l : List Char) : List (List Char) :=
  ((splitPipeGo [] l).map trimBoth).filter (fun p => !p.isEmpty)

/-- `title.lower().startswith(pat)` for an already-lowercase `pat`. -/
def lowStarts (l pat : List Char) : Bool := pat.isPrefixOf (lowerStr l)

/-- Membership in a Python `set`, by decidable equality. -/
def listHas {α : Type} [DecidableEq α] (l : List α) (a : α) : Bool :=
  l.any (fun x => decide (x = a))

/-! ## boomerang.py: the shared stateful normalizer core

`parse_html_table`, `parse_pipe_rows` and `fallback_time_scan_unescaped`
share the same loop: per-row stateless extraction (time of day, title,
description, duration), then the stateful rollover / dedup / append step,
then `sorted(..., key=start)` and the stop back-patch.  The stateless part
is factored into a per-strategy function producing `Option RowData`. -/

/-- One row after stateless extraction: time of day in minutes, duration in
minutes, title and description. -/
structure RowData where
  t : Nat
  dur : Nat
  title : List Char
  desc : List Char
deriving DecidableEq

/-- One emitted programme; `start`/`stop` in minutes (see header). -/
structure Prog where
  start : Nat
  stop : Nat
  title : List Char
  desc : List Char
deriving DecidableEq

def withStop (p : Prog) (s : Nat) : Prog := ⟨p.start, s, p.title, p.desc⟩

/-- Loop state: `seen` (dedup keys: start instant and normalized title),
`last` (= `last_start`), `day` (= `current_day`), `out` (programs so far). -/
structure PState where
  seen : List (Nat × List Char)
  last : Option Nat
  day : Nat
  out : List Prog
deriving DecidableEq

/-- The dedup title normalization `re.sub(r'\s+', ' ', title).lower()`. -/
def normKey (title : List Char) : List Char := lowerStr (collapseWs title)

/-- One iteration of the shared loop body on an extracted row
(boomerang.py lines 160–196 / 304–336 / 363–374): build the candidate start
on the current day, apply the rollover rule (advance one day and move the
day cursor to the new start's date when the candidate does not get past
`last_start`), then either skip on a seen `(start, normalized title)` key
(still advancing `last_start`) or append the programme with
`stop = start + duration`. -/
def coreStep (st : PState) (o : Option RowData) : PState :=
  match o with
  | none => st
  | some r =>
    let cand := st.day * 1440 + r.t
    let start :=
      match st.last with
      | some v => if cand ≤ v then cand + 1440 else cand
      | none => cand
    let day :=
      match st.last with
      | some v => if cand ≤ v then start / 1440 else st.day
      | none => st.day
    let key := (start, normKey r.title)
    if listHas st.seen key then ⟨st.seen, some start, day, st.out⟩
    else ⟨key :: st.seen, some start, day, st.out ++ [⟨start, start + r.dur, r.title, r.desc⟩]⟩

/-- Programme list after the stateful pass, before sort and back-patch. -/
def coreRun (rds : List (Option RowData)) (baseDay : Nat) : List Prog :=
  (rds.foldl coreStep ⟨[], none, baseDay, []⟩).out

/-- Python's `sorted(programs, key=lambda x: x["start"])` is a stable sort;
`List.insertionSort` with `≤` on `start` is stable, and any two stable sorts
agree. -/
def pySort (l : List Prog) : List Prog :=
  List.insertionSort (fun p q => p.start ≤ q.start) l

/-- The stop back-patch (lines 201–203 / 338–340 / 376–378): for each entry
with a successor of strictly greater start, overwrite `stop` with that
successor's start; the last entry is left unchanged. -/
def patchStops : List Prog → List Prog
  | p :: q :: rest =>
    (if p.start < q.start then withStop p q.start else p) :: patchStops (q :: rest)
  | l => l

/-- Sort plus back-patch applied to the loop output. -/
def boomerangFinish (rds : List (Option RowData)) (baseDay : Nat) : List Prog :=
  patchStops (pySort (coreRun rds baseDay))

/-! ## boomerang.py stateless row extraction -/

/-- Find the first cell among the given ones containing a TIME_RE match
(index and match); models the `for i, c in enumerate(cells[:4])` search when
applied to `cells.take 4`. -/
def findTimeCell : List (List Char) → Option (Nat × TimeMatch)
  | [] => none
  | c :: cs =>
    match timeSearch c with
    | some m => some (0, m)
    | none => (findTimeCell cs).map (fun r => (r.1 + 1, r.2))

/-- Cell-role assignment (boomerang.py lines 124–149 / 272–295): title is the
cell after the time cell; a final cell that looks like a duration becomes the
duration cell; cells in between become the description.  `ti = none` is the
pipe variant's whole-line match (`time_idx is None`). -/
def cellRoles (cells : List (List Char)) (ti : Option Nat) :
    List Char × List Char × List Char :=
  let fb : List Char × List Char × List Char :=
    if cells.length ≥ 2 then
      ((cells.drop 1).headD [],
       if cells.length > 2 then joinSpace (cells.drop 2) else [], [])
    else (joinSpace cells, [], [])
  match ti with
  | some i =>
    if cells.length > i + 1 then
      let title := (cells.drop (i + 1)).headD []
      if cells.length ≥ i + 4 then
        let cand := (cells.getLast?).getD []
        if (durHHMMFirst cand).isSome || (durMinFirst cand).isSome then
          (title,
           if cells.length > i + 2 then joinSpace ((cells.drop (i + 2)).dropLast) else [],
           cand)
        else (title, joinSpace (cells.drop (i + 2)), [])
      else if cells.length = i + 2 then (title, [], [])
      else (title, joinSpace (cells.drop (i + 2)), [])
    else fb
  | none => fb

/-- The duration scan over `(title, desc, row text)` (lines 177–185):
DUR_HHMM first on each text, then DUR_MIN, first hit wins. -/
def scanDur : List (List Char) → Option Nat
  | [] => none
  | t :: rest =>
    match durHHMMFirst t with
    | some (h, m) => some (h * 60 + m)
    | none =>
      match durMinFirst t with
      | some n => some n
      | none => scanDur rest

/-- Full duration resolution (lines 166–187): the duration cell if it parses,
else the scan over the given texts, else the 30-minute default
(`DEFAULT_DURATION_MIN`). -/
def rowDurationOf (durCell : List Char) (txts : List (List Char)) : Nat :=
  let fromCell : Option Nat :=
    if durCell.isEmpty then none
    else
      match durHHMMFirst durCell with
      | some (h, m) => some (h * 60 + m)
      | none => durMinFirst durCell
  match fromCell with
  | some n => n
  | none =>
    match scanDur txts with
    | some n => n
    | none => 30

/-- Stateless part of one `parse_html_table` row (lines 108–187) over the
row's `<td>` texts.  The `int(x) for x in time_token.split(":")` re-parse of
the normalized token always succeeds and yields the match's hour/minute. -/
def htmlRowExtract (cells : List (List Char)) : Option RowData :=
  match findTimeCell (cells.take 4) with
  | none => none
  | some (i, m) =>
    let roles := cellRoles cells (some i)
    let title := stripUrlTrim roles.1
    let desc := stripUrlTrim roles.2.1
    if title.isEmpty || lowStarts title (cl "thời gian")
        || lowStarts title (cl "tên chương trình") then none
    else
      some ⟨m.hh * 60 + m.mm, rowDurationOf roles.2.2 [title, desc, joinSpace cells], title, desc⟩

/-- `re.match(r'^\s*\|\s*-{1,}\s*(\|\s*-{1,}\s*)+', ln)`: a pipe-table
separator/rule line (two or more `|---` chunks). -/
def sepChunk (l : List Char) : Option (List Char) :=
  match l with
  | '|' :: r1 =>
    match r1.dropWhile isSpc with
    | '-' :: r2 => some ((r2.dropWhile (fun c => c = '-')).dropWhile isSpc)
    | _ => none
  | _ => none

def isSepLine (l : List Char) : Bool :=
  match sepChunk (l.dropWhile isSpc) with
  | some rest => (sepChunk rest).isSome
  | none => false

/-- Stateless part of one `parse_pipe_rows` line (lines 254–329): split on
pipes, search the first four parts for a time token, fall back to a search
over the whole line (then `time_idx` stays `None`); no empty-title skip in
this variant; the duration scan's third text is the whole raw line. -/
def pipeRowExtract (ln : List Char) : Option RowData :=
  let parts := pipeParts ln
  if parts.isEmpty then none
  else
    let found :=
      match findTimeCell (parts.take 4) with
      | some (i, m) => some (some i, m)
      | none =>
        match timeSearch ln with
        | some m => some (none, m)
        | none => none
    match found with
    | none => none
    | some (ti, m) =>
      let roles := cellRoles parts ti
      let title := stripUrlTrim roles.1
      let desc := stripUrlTrim roles.2.1
      if lowStarts title (cl "thời gian") || lowStarts title (cl "tên chương trình") then
        none
      else
        some ⟨m.hh * 60 + m.mm, rowDurationOf roles.2.2 [title, desc, ln], title, desc⟩

/-- Stateless part of one `fallback_time_scan_unescaped` line (lines
350–358): title is the URL-stripped text after the match, else the text
before it; duration is always the 30-minute default. -/
def fallbackLineExtract (ln : List Char) : Option RowData :=
  match timeSearch ln with
  | none => none
  | some m =>
    let rest := trimBoth m.post
    let t1 := stripUrlTrim rest
    some ⟨m.hh * 60 + m.mm, 30, if t1.isEmpty then trimBoth m.pre else t1, []⟩

/-! ## boomerang.py strategies and pipeline -/

/-- One table cell: whether it is a `<th>` and its extracted text. -/
structure Cell where
  th : Bool
  text : List Char
deriving DecidableEq

/-- A table row (its `<th>`/`<td>` cells in document order) and a table. -/
abbrev HRow := List Cell

abbrev HTable := List HRow

/-- The header probe (line 104): the first six `th`/`td` texts of the whole
table, lowercased and space-joined. -/
def headerText (t : HTable) : List Char :=
  joinSpace ((t.flatten.map (fun c => lowerStr c.text)).take 6)

/-- The keyword test (line 105); note the fourth, bare keyword `"thoi"`. -/
def headerHit (t : HTable) : Bool :=
  containsSub (headerText t) (cl "thời gian") || containsSub (headerText t) (cl "thoi gian")
    || containsSub (headerText t) (cl "time") || containsSub (headerText t) (cl "thoi")

/-- First table whose header probe matches (the `for tbl in tables` loop
with the `break` at line 198: only this table is ever row-parsed). -/
def findTable : List HTable → Option HTable
  | [] => none
  | t :: ts => if headerHit t then some t else findTable ts

/-- Row extraction over a table: each row contributes its `<td>` texts
(`tr.find_all("td")`); rows without `<td>` cells yield no entry. -/
def tableRowDatas (t : HTable) : List (Option RowData) :=
  t.map (fun r => htmlRowExtract ((r.filter (fun c => !c.th)).map Cell.text))

/-- `parse_html_table(soup, base_date)` over the document's tables. -/
def parseHtmlTable (tables : List HTable) (baseDay : Nat) : List Prog :=
  match findTable tables with
  | some t => boomerangFinish (tableRowDatas t) baseDay
  | none => []

/-- `parse_pipe_rows(rows, base_date)` (lines 242–341): drop separator
lines, strip, then the shared loop over per-line extraction. -/
def parsePipeRows (rows : List (List Char)) (baseDay : Nat) : List Prog :=
  boomerangFinish (((rows.filter (fun ln => !isSepLine ln)).map trimBoth).map pipeRowExtract)
    baseDay

/-- `fallback_time_scan_unescaped(html_unesc, base_date)` (lines 344–379)
over the document's lines: keep lines with a TIME_RE match, strip them, then
the shared loop. -/
def fallbackTimeScan (lines : List (List Char)) (baseDay : Nat) : List Prog :=
  boomerangFinish
    ((((lines.filter (fun ln => (timeSearch ln).isSome)).map trimBoth).map fallbackLineExtract))
    baseDay

/-- The strategy chain of `main()` (lines 399–410): the structured-table
parse; if it yields nothing, the pipe parse (only when the pipe extractor
found rows); if still nothing, the fallback scan.  `pipeRows` stands for
`extract_pipe_table_from_html`'s result.  The function is total: no input
raises. -/
def mainPrograms (tables : List HTable) (pipeRows : List (List Char))
    (lines : List (List Char)) (baseDay : Nat) : List Prog :=
  let a := parseHtmlTable tables baseDay
  if a.isEmpty then
    let b := if pipeRows.isEmpty then [] else parsePipeRows pipeRows baseDay
    if b.isEmpty then fallbackTimeScan lines baseDay else b
  else a

/-- The serializer-facing guide: `write_xml(programs)` (lines 49–74) always
emits the `<tv>` root and the channel declaration, and skips programmes with
a missing (falsy) start, stop or title; in this model start and stop are
always present, so only empty titles are skipped. -/
structure Guide where
  channel : List Char
  programmes : List Prog
deriving DecidableEq

def writeXml (ps : List Prog) : Guide :=
  ⟨cl "cartoonito", ps.filter (fun p => !p.title.isEmpty)⟩

/-! ## craw1.py `parse_antv_html` (lines 283–369)

The DOM stages above line 283 (container choice, candidate harvesting and
size limits) are not modelled; a candidate node is represented by its
stripped text lines (its `get_text("\n", strip=True)` split on newlines),
and `parseAntv` models the pipeline from the text-block dedup onwards. -/

/-- A candidate node's text lines. -/
abbrev Block := List (List Char)

/-- `node.get_text("\n", strip=True)`. -/
def blockText (b : Block) : List Char := List.intercalate (cl "\n") b

/-- Count of consecutive digits at the head, and the rest. -/
def digCount : List Char → Nat × List Char
  | [] => (0, [])
  | c :: cs => if isDig c then ((digCount cs).1 + 1, (digCount cs).2) else (0, c :: cs)

/-- `phone_re = \b0\d{8,}\b` (line 293).  `\d` is a word character, so no
backtracking inside the digit run can restore the trailing `\b`: the regex
matches exactly when some `'0'` sits at a word boundary, is followed by a
maximal digit run of length at least 8, and the character after that run (if
any) is not a word character.  The flag is the current left-boundary state. -/
def phoneGo : Bool → List Char → Bool
  | _, [] => false
  | bdry, c :: cs =>
    (bdry && c = '0' && (digCount cs).1 ≥ 8 && nonWordHead (digCount cs).2)
      || phoneGo (!isWordChar c) cs

def phoneSearch (l : List Char) : Bool := phoneGo true l

/-- `intl_phone_re = \+\d{6,}` (line 294). -/
def intlSearch : List Char → Bool
  | [] => false
  | c :: cs => (c = '+' && (digCount cs).1 ≥ 6) || intlSearch cs

/-- Character class `[\w.-]` of `email_re`. -/
def isEmailChar (c : Char) : Bool := isWordChar c || c = '.' || c = '-'

/-- `email_re = [\w\.-]+@[\w\.-]+` (line 295): some `'@'` flanked by class
characters. -/
def emailGo : Option Char → List Char → Bool
  | _, [] => false
  | prev, c :: cs =>
    (c = '@'
        && (match prev with | some p => isEmailChar p | none => false)
        && (match cs with | n :: _ => isEmailChar n | [] => false))
      || emailGo (some c) cs

def emailSearch (l : List Char) : Bool := emailGo none l

/-- Word boundary between two optional characters (either may be the string
edge). -/
def bdryOK : Option Char → Option Char → Bool
  | none, some c => isWordChar c
  | some c, none => isWordChar c
  | some a, some b => isWordChar a != isWordChar b
  | none, none => false

/-- Case-insensitive literal keyword match at the head with `\b` on both
sides of the matched region (the shape of `\b(alt|...)\b` patterns).
Wordness is unchanged by lowercasing, so boundary checks read the input. -/
def kwAt (kw : List Char) (prev : Option Char) (l : List Char) : Bool :=
  decide (kw.length ≤ l.length) && lowerStr (l.take kw.length) = kw
    && bdryOK prev l.head? && bdryOK ((l.take kw.length).getLast?) ((l.drop kw.length).head?)

def kwSearchGo (kws : List (List Char)) : Option Char → List Char → Bool
  | _, [] => false
  | prev, c :: cs => kws.any (fun kw => kwAt kw prev (c :: cs)) || kwSearchGo kws (some c) cs

/-- `hotline_kw` (line 296): `\b(hotline|hot-line|số điện thoại|điện thoại| hotline )\b`, re.I. -/
def hotlineSearch (l : List Char) : Bool :=
  kwSearchGo [cl "hotline", cl "hot-line", cl "số điện thoại", cl "điện thoại", cl " hotline "]
    none l

/-- `contact_kw` (line 297):
`\b(email|gmail|yahoo|facebook|zalo|web|www\.|http[:\/]{2})\b`, re.I; the
`http[:\/]{2}` alternative is expanded into its four literal instances. -/
def contactSearch (l : List Char) : Bool :=
  kwSearchGo
    [cl "email", cl "gmail", cl "yahoo", cl "facebook", cl "zalo", cl "web", cl "www.",
     cl "http::", cl "http:/", cl "http/:", cl "http//"] none l

/-- `ads_kw` (line 298):
`\b(quảng cáo|advertis|đặt quảng cáo|quảng cáo|sponsor)\b`, re.I (the source
repeats one alternative; kept for fidelity). -/
def adsSearch (l : List Char) : Bool :=
  kwSearchGo
    [cl "quảng cáo", cl "advertis", cl "đặt quảng cáo", cl "quảng cáo", cl "sponsor"] none l

/-- The block-level contact/ads filter (line 306). -/
def antvNoise (txt : List Char) : Bool :=
  phoneSearch txt || intlSearch txt || emailSearch txt || hotlineSearch txt
    || contactSearch txt || adsSearch txt

/-- `\b\d{1,2}[:h\.]\d{2}\b` (line 340) attempted at the head given the
previous character: greedy two-digit hour, then one digit; the trailing `\b`
requires a non-word follower.  Returns the match length. -/
def timeTokBAtHead (prev : Option Char) (l : List Char) : Option Nat :=
  if bdryOK prev l.head? then
    match l with
    | a :: b :: rest =>
      if isDig a then
        if isDig b then
          match tokSepOk rest with
          | some (_, _, _, post) => if nonWordHead post then some 5 else none
          | none =>
            match tokSepOk (b :: rest) with
            | some (_, _, _, post) => if nonWordHead post then some 4 else none
            | none => none
        else
          match tokSepOk (b :: rest) with
          | some (_, _, _, post) => if nonWordHead post then some 4 else none
          | none => none
      else none
    | _ => none
  else none

/-- `re.sub(r'\b\d{1,2}[:h\.]\d{2}\b', '', title)`: successive leftmost
matches are removed; scanning resumes after each match, with the original
characters still providing the boundary context. -/
def stripTimeToksGo : Nat → Option Char → List Char → List Char
  | 0, _, l => l
  | _, _, [] => []
  | fuel + 1, prev, c :: cs =>
    match timeTokBAtHead prev (c :: cs) with
    | some n =>
      stripTimeToksGo fuel (((c :: cs).take n).getLast?) (cs.drop (n - 1))
    | none => c :: stripTimeToksGo fuel (some c) cs

def stripTimeToks (l : List Char) : List Char := stripTimeToksGo l.length none l

/-- `cleaned.split("\n")[0]`. -/
def firstLineOf (l : List Char) : List Char := l.takeWhile (fun c => c ≠ '\n')

/-- The per-block candidate stage (lines 303–346): filter noisy blocks, find
the first raw time token, locate its line, pick the title (next line, or the
same line with the token removed, or `"Unknown"`), normalize the title by
stripping bounded time tokens and collapsing whitespace, and filter trivial
or contact-like titles.  Returns the normalized time token, title and
description. -/
def antvBlockCandidate (b : Block) : Option (List Char × List Char × List Char) :=
  let txt := blockText b
  if antvNoise txt then none
  else
    match timeTokFirst txt with
    | none => none
    | some raw =>
      let tok := replSep raw
      let tt :=
        match b.findIdx? (fun ln => containsSub ln raw) with
        | none => (firstLineOf (trimBoth (removeAllTok raw txt)), ([] : List Char))
        | some i =>
          if i + 1 < b.length then
            ((b.drop (i + 1)).headD [],
             if i + 2 < b.length then joinSpace ((b.drop (i + 2)).take 2) else [])
          else
            let lineAfter := trimBoth (removeAllTok raw ((b.drop i).headD []))
            (if lineAfter.isEmpty then cl "Unknown" else lineAfter, [])
      let tnorm := joinSpace (wsTokens (stripTimeToks tt.1))
      if tnorm.length < 2 then none
      else if phoneSearch tnorm || emailSearch tnorm || hotlineSearch tnorm
          || contactSearch tnorm then none
      else some (tok, tnorm, joinSpace (wsTokens tt.2))

/-- Accumulator of the item loop: dedup keys `(time_token, title.lower())`
and accepted raw items `(start, title, desc)`. -/
structure AntvAcc where
  seenP : List (List Char × List Char)
  items : List (Nat × List Char × List Char)
deriving DecidableEq

/-- One candidate block through dedup and time parsing (lines 348–357); note
the key is recorded before the time parse is attempted. -/
def antvStep (base : Nat) (acc : AntvAcc) (b : Block) : AntvAcc :=
  match antvBlockCandidate b with
  | none => acc
  | some it =>
    let key := (it.1, lowerStr it.2.1)
    if listHas acc.seenP key then acc
    else
      match parseTimeFromText base it.1 with
      | none => ⟨key :: acc.seenP, acc.items⟩
      | some s => ⟨key :: acc.seenP, acc.items ++ [(s, it.2.1, it.2.2)]⟩

/-- The identical-text block dedup (lines 283–290). -/
def dedupTextsGo : List (List Char) → List Block → List Block
  | _, [] => []
  | seen, b :: bs =>
    if listHas seen (blockText b) then dedupTextsGo seen bs
    else b :: dedupTextsGo (blockText b :: seen) bs

/-- `sorted(items, key=lambda x: x['start'])`, stable (see `pySort`). -/
def antvSort (l : List (Nat × List Char × List Char)) : List (Nat × List Char × List Char) :=
  List.insertionSort (fun a b => a.1 ≤ b.1) l

/-- The stop-inference loop of `parse_antv_html` (lines 359–367): an entry
whose successor's start does not advance gets `start + 30`, otherwise the
successor's start; the final entry, never assigned in the loop, gets
`start + 30`. -/
def antvInferStops : List (Nat × List Char × List Char) → List Prog
  | [] => []
  | [x] => [⟨x.1, x.1 + 30, x.2.1, x.2.2⟩]
  | x :: y :: rest =>
    ⟨x.1, if y.1 ≤ x.1 then x.1 + 30 else y.1, x.2.1, x.2.2⟩ :: antvInferStops (y :: rest)

/-- `parse_antv_html` from the candidate blocks onwards. -/
def parseAntv (blocks : List Block) (base : Nat) : List Prog :=
  antvInferStops
    (antvSort ((dedupTextsGo [] blocks).foldl (antvStep base) ⟨[], []⟩).items)

/-! ## craw1.py `crawl_generic` (lines 386–402), per selected node -/

/-- One node of the selector loop: find the raw time token in the node text,
remove all its occurrences to get the title, fall back to the optional
`.title/.tieu-de/.name` sub-node text, and emit with the placeholder
`"Unknown"` when the title is still empty (`title or "Unknown"`). -/
def crawlGenericNode (base : Nat) (text : List Char) (titleSel : Option (List Char)) :
    Option (Nat × List Char) :=
  match timeTokFirst text with
  | none => none
  | some raw =>
    let t0 := trimBoth (removeAllTok raw text)
    let title :=
      if t0.isEmpty then (match titleSel with | some s => s | none => []) else t0
    match parseTimeFromText base (replSep raw) with
    | none => none
    | some s => some (s, if title.isEmpty then cl "Unknown" else title)

/-! ## Bounds of TIME_RE matches -/

theorem sepMinOk_mm_lt {l : List Char} {s m1 m2 : Char} {mm : Nat} {post : List Char}
    (h : sepMinOk l = some (s, m1, m2, mm, post)) : mm < 60 := by
  unfold sepMinOk at h
  split at h
  · split at h
    · rename_i hc
      simp only [Bool.and_eq_true, inRangeC, isDig, decide_eq_true_eq] at hc
      simp only [Option.some.injEq, Prod.mk.injEq] at h
      obtain ⟨-, ha, hb, hmm, -⟩ := h
      subst ha hb
      simp only [digVal] at hmm
      omega
    · exact absurd h (by simp)
  · exact absurd h (by simp)

theorem timeAlt2_bounds {a b : Char} {rest tok post : List Char} {hh mm : Nat}
    (h : timeAlt2 a b rest = some (tok, hh, mm, post)) : hh < 24 ∧ mm < 60 := by
  unfold timeAlt2 at h
  split at h
  · rename_i hc
    simp only [Bool.and_eq_true, inRangeC, isDig, decide_eq_true_eq] at hc
    split at h
    · rename_i heq
      simp only [Option.some.injEq, Prod.mk.injEq] at h
      obtain ⟨-, hhh, hmm, -⟩ := h
      have := sepMinOk_mm_lt heq
      simp only [digVal] at hhh
      omega
    · exact absurd h (by simp)
  · exact absurd h (by simp)

theorem timeAlt1_bounds {a : Char} {tail tok post : List Char} {hh mm : Nat}
    (h : timeAlt1 a tail = some (tok, hh, mm, post)) : hh < 24 ∧ mm < 60 := by
  unfold timeAlt1 at h
  split at h
  · rename_i hc
    simp only [isDig, inRangeC, Bool.and_eq_true, decide_eq_true_eq] at hc
    split at h
    · rename_i heq
      simp only [Option.some.injEq, Prod.mk.injEq] at h
      obtain ⟨-, hhh, hmm, -⟩ := h
      have := sepMinOk_mm_lt heq
      simp only [digVal] at hhh
      omega
    · exact absurd h (by simp)
  · exact absurd h (by simp)

theorem timeAlt3_bounds {a b : Char} {rest tok post : List Char} {hh mm : Nat}
    (h : timeAlt3 a b rest = some (tok, hh, mm, post)) : hh < 24 ∧ mm < 60 := by
  unfold timeAlt3 at h
  split at h
  · rename_i hc
    simp only [Bool.and_eq_true, inRangeC, decide_eq_true_eq] at hc
    split at h
    · rename_i heq
      simp only [Option.some.injEq, Prod.mk.injEq] at h
      obtain ⟨-, hhh, hmm, -⟩ := h
      have := sepMinOk_mm_lt heq
      simp only [digVal] at hhh
      omega
    · exact absurd h (by simp)
  · exact absurd h (by simp)

theorem timeAtHead_bounds {cs tok post : List Char} {hh mm : Nat}
    (h : timeAtHead cs = some (tok, hh, mm, post)) : hh < 24 ∧ mm < 60 := by
  unfold timeAtHead at h
  split at h
  · split at h
    · rename_i heq
      simp only [Option.some.injEq] at h
      subst h
      exact timeAlt2_bounds heq
    · split at h
      · rename_i heq
        simp only [Option.some.injEq] at h
        subst h
        exact timeAlt1_bounds heq
      · exact timeAlt3_bounds h
  · exact absurd h (by simp)

theorem timeSearchGo_bounds {pre l : List Char} {pw : Bool} {m : TimeMatch}
    (h : timeSearchGo pre pw l = some m) : m.hh < 24 ∧ m.mm < 60 := by
  induction l generalizing pre pw with
  | nil => exact absurd h (by simp [timeSearchGo])
  | cons c cs ih =>
    simp only [timeSearchGo] at h
    rcases h1 : (if pw then none else timeAtHead (c :: cs)) with _ | r
    · rw [h1] at h
      exact ih h
    · rw [h1] at h
      obtain ⟨tok, hh, mm, post⟩ := r
      have hb : timeAtHead (c :: cs) = some (tok, hh, mm, post) := by
        by_cases hpw : pw = true
        · rw [hpw] at h1; exact absurd h1 (by simp)
        · simp only [Bool.not_eq_true] at hpw
          rw [hpw] at h1
          simpa using h1
      injection h with h
      subst h
      exact timeAtHead_bounds hb

theorem timeSearch_bounds {l : List Char} {m : TimeMatch}
    (h : timeSearch l = some m) : m.hh < 24 ∧ m.mm < 60 :=
  timeSearchGo_bounds h

theorem findTimeCell_bounds {cells : List (List Char)} {i : Nat} {m : TimeMatch}
    (h : findTimeCell cells = some (i, m)) : m.hh < 24 ∧ m.mm < 60 := by
  induction cells generalizing i with
  | nil => exact absurd h (by simp [findTimeCell])
  | cons c cs ih =>
    unfold findTimeCell at h
    split at h
    · rename_i m2 heq
      simp only [Option.some.injEq, Prod.mk.injEq] at h
      obtain ⟨-, hm⟩ := h
      subst hm
      exact timeSearch_bounds heq
    · rcases h2 : findTimeCell cs with _ | p
      · rw [h2] at h; exact absurd h (by simp)
      · rw [h2] at h
        obtain ⟨i2, m2⟩ := p
        simp at h
        obtain ⟨-, hm⟩ := h
        subst hm
        exact ih h2

/-- Every extracted row's time of day is below 1440 minutes. -/
theorem htmlRowExtract_t_lt {cells : List (List Char)} {r : RowData}
    (h : htmlRowExtract cells = some r) : r.t < 1440 := by
  rcases h2 : findTimeCell (cells.take 4) with _ | ⟨i, m⟩
  · simp [htmlRowExtract, h2] at h
  · have hb := findTimeCell_bounds h2
    simp only [htmlRowExtract, h2] at h
    split at h
    · exact absurd h (by simp)
    · simp only [Option.some.injEq] at h
      subst h
      dsimp only
      omega

theorem pipeRowExtract_t_lt {ln : List Char} {r : RowData}
    (h : pipeRowExtract ln = some r) : r.t < 1440 := by
  have key : ∀ (ti : Option Nat) (m : TimeMatch), m.hh < 24 → m.mm < 60 →
      (match cellRoles (pipeParts ln) ti with
        | roles =>
          if lowStarts (stripUrlTrim roles.1) (cl "thời gian")
              || lowStarts (stripUrlTrim roles.1) (cl "tên chương trình") then none
          else some (⟨m.hh * 60 + m.mm,
            rowDurationOf roles.2.2 [stripUrlTrim roles.1, stripUrlTrim roles.2.1, ln],
            stripUrlTrim roles.1, stripUrlTrim roles.2.1⟩ : RowData)) = some r →
      r.t < 1440 := by
    intro ti m h24 h60 hm
    simp only at hm
    split at hm
    · exact absurd hm (by simp)
    · simp only [Option.some.injEq] at hm
      subst hm
      dsimp only
      omega
  rcases h2 : findTimeCell ((pipeParts ln).take 4) with _ | ⟨i, m⟩
  · rcases h3 : timeSearch ln with _ | m
    · simp [pipeRowExtract, h2, h3] at h
    · obtain ⟨hb1, hb2⟩ := timeSearch_bounds h3
      simp only [pipeRowExtract, h2, h3] at h
      split at h
      · exact absurd h (by simp)
      · exact key none m hb1 hb2 h
  · obtain ⟨hb1, hb2⟩ := findTimeCell_bounds h2
    simp only [pipeRowExtract, h2] at h
    split at h
    · exact absurd h (by simp)
    · exact key (some i) m hb1 hb2 h

theorem fallbackLineExtract_t_lt {ln : List Char} {r : RowData}
    (h : fallbackLineExtract ln = some r) : r.t < 1440 := by
  rcases h2 : timeSearch ln with _ | m
  · simp [fallbackLineExtract, h2] at h
  · have hb := timeSearch_bounds h2
    simp only [fallbackLineExtract, h2, Option.some.injEq] at h
    subst h
    dsimp only
    omega

/-! ## The rollover invariant of the shared loop -/

/-- Invariant of the shared loop state: the output is strictly increasing in
`start` and bounded by `last_start`, and the day cursor is `last_start`'s
calendar day. -/
structure Inv (st : PState) : Prop where
  chain : List.Chain' (fun p q : Prog => p.start < q.start) st.out
  bound : ∀ v, st.last = some v → ∀ p ∈ st.out, p.start ≤ v
  day_eq : ∀ v, st.last = some v → st.day = v / 1440
  none_nil : st.last = none → st.out = []

theorem inv_init (d : Nat) : Inv ⟨[], none, d, []⟩ := by
  refine ⟨?_, ?_, ?_, ?_⟩ <;> simp

theorem inv_skip {seen : List (Nat × List Char)} {out : List Prog} {s day2 : Nat}
    (hchain : List.Chain' (fun p q : Prog => p.start < q.start) out)
    (hbound : ∀ q ∈ out, q.start < s) (hday : day2 = s / 1440) :
    Inv ⟨seen, some s, day2, out⟩ := by
  refine ⟨hchain, ?_, ?_, by simp⟩
  · intro w hw q hq
    have hsw : s = w := by injection hw
    exact hsw ▸ le_of_lt (hbound q hq)
  · intro w hw
    have hsw : s = w := by injection hw
    exact hsw ▸ hday

theorem inv_add {seen : List (Nat × List Char)} {out : List Prog} {s day2 : Nat} {p : Prog}
    (hchain : List.Chain' (fun p q : Prog => p.start < q.start) out)
    (hbound : ∀ q ∈ out, q.start < s) (hday : day2 = s / 1440) (hp : p.start = s) :
    Inv ⟨seen, some s, day2, out ++ [p]⟩ := by
  refine ⟨?_, ?_, ?_, by simp⟩
  · refine List.Chain'.append hchain (List.chain'_singleton _) ?_
    intro x hx y hy
    simp only [List.head?_cons, Option.mem_def, Option.some.injEq] at hy
    subst hy
    have := hbound x (List.mem_of_mem_getLast? hx)
    omega
  · intro w hw q hq
    have hsw : s = w := by injection hw
    simp only [List.mem_append, List.mem_singleton] at hq
    rcases hq with hq | hq
    · exact hsw ▸ le_of_lt (hbound q hq)
    · subst hq
      omega
  · intro w hw
    have hsw : s = w := by injection hw
    exact hsw ▸ hday

theorem inv_step {st : PState} {o : Option RowData} (h : Inv st)
    (ht : ∀ r, o = some r → r.t < 1440) : Inv (coreStep st o) := by
  obtain ⟨seen, last, day, out⟩ := st
  rcases o with _ | r
  · exact h
  have htr : r.t < 1440 := ht r rfl
  rcases last with _ | v
  · have hnil : out = [] := h.none_nil rfl
    subst hnil
    dsimp only [coreStep]
    split
    · exact inv_skip (by simp) (by simp) (by omega)
    · exact inv_add (by simp) (by simp) (by omega) rfl
  · have hday : day = v / 1440 := h.day_eq v rfl
    by_cases hc : day * 1440 + r.t ≤ v
    · dsimp only [coreStep]
      simp only [if_pos hc]
      have hb : ∀ q ∈ out, q.start < day * 1440 + r.t + 1440 := by
        intro q hq
        have := h.bound v rfl q hq
        omega
      split
      · exact inv_skip h.chain hb rfl
      · exact inv_add h.chain hb rfl rfl
    · dsimp only [coreStep]
      simp only [if_neg hc]
      have hb : ∀ q ∈ out, q.start < day * 1440 + r.t := by
        intro q hq
        have := h.bound v rfl q hq
        omega
      split
      · exact inv_skip h.chain hb (by omega)
      · exact inv_add h.chain hb (by omega) rfl

theorem inv_fold {rds : List (Option RowData)} {st : PState} (h : Inv st)
    (ht : ∀ o ∈ rds, ∀ r, o = some r → r.t < 1440) :
    Inv (rds.foldl coreStep st) := by
  induction rds generalizing st with
  | nil => exact h
  | cons o os ih =>
    simp only [List.foldl_cons]
    exact ih (inv_step h (ht o (by simp))) (fun o2 ho2 => ht o2 (by simp [ho2]))

theorem coreRun_chain {rds : List (Option RowData)} {d : Nat}
    (ht : ∀ o ∈ rds, ∀ r, o = some r → r.t < 1440) :
    List.Chain' (fun p q : Prog => p.start < q.start) (coreRun rds d) :=
  (inv_fold (inv_init d) ht).chain

/-! ## Sorting and the stop back-patch -/

theorem pySort_eq_self {l : List Prog}
    (h : List.Chain' (fun p q : Prog => p.start < q.start) l) : pySort l = l := by
  have hp : List.Pairwise (fun p q : Prog => p.start < q.start) l := by
    have : IsTrans Prog (fun p q : Prog => p.start < q.start) :=
      ⟨fun a b c h1 h2 => lt_trans h1 h2⟩
    exact List.chain'_iff_pairwise.mp h
  exact List.Sorted.insertionSort_eq (hp.imp le_of_lt)

theorem patchStops_cons (p : Prog) (l : List Prog) :
    patchStops (p :: l) =
      (match l with
        | [] => p
        | q :: _ => if p.start < q.start then withStop p q.start else p) :: patchStops l := by
  cases l <;> rfl

theorem patchStops_head_start : ∀ (l : List Prog) (p : Prog) (hd : Prog),
    (patchStops (p :: l)).head? = some hd → hd.start = p.start := by
  intro l p hd h
  rw [patchStops_cons] at h
  simp only [List.head?_cons, Option.some.injEq] at h
  subst h
  cases l with
  | nil => rfl
  | cons q rest =>
    dsimp only
    split <;> rfl

/-- After the back-patch of a strictly increasing programme list, every
adjacent pair satisfies `start < next.start` and `stop = next.start`. -/
theorem patchStops_chain {l : List Prog}
    (h : List.Chain' (fun p q : Prog => p.start < q.start) l) :
    List.Chain' (fun p q : Prog => p.start < q.start ∧ p.stop = q.start) (patchStops l) := by
  induction l with
  | nil => simp [patchStops]
  | cons p l ih =>
    cases l with
    | nil => simp [patchStops]
    | cons q rest =>
      have hpq : p.start < q.start := (List.chain'_cons.mp h).1
      have h2 : List.Chain' (fun p q : Prog => p.start < q.start) (q :: rest) :=
        (List.chain'_cons.mp h).2
      rw [patchStops_cons]
      dsimp only
      rw [if_pos hpq]
      refine List.chain'_cons'.mpr ⟨?_, ih h2⟩
      intro y hy
      have hys : y.start = q.start := patchStops_head_start rest q y hy
      exact ⟨by simp only [withStop]; omega, by simp only [withStop]; omega⟩

/-- The end-to-end chain property of the shared boomerang pipeline. -/
theorem boomerangFinish_chain {rds : List (Option RowData)} {d : Nat}
    (ht : ∀ o ∈ rds, ∀ r, o = some r → r.t < 1440) :
    List.Chain' (fun p q : Prog => p.start < q.start ∧ p.stop = q.start)
      (boomerangFinish rds d) := by
  unfold boomerangFinish
  rw [pySort_eq_self (coreRun_chain ht)]
  exact patchStops_chain (coreRun_chain ht)

theorem parseHtmlTable_chain (tables : List HTable) (d : Nat) :
    List.Chain' (fun p q : Prog => p.start < q.start ∧ p.stop = q.start)
      (parseHtmlTable tables d) := by
  unfold parseHtmlTable
  split
  · refine boomerangFinish_chain ?_
    intro o ho r hr
    subst hr
    unfold tableRowDatas at ho
    obtain ⟨row, -, hrow⟩ := List.mem_map.mp ho
    exact htmlRowExtract_t_lt hrow
  · exact List.chain'_nil

theorem parsePipeRows_chain (rows : List (List Char)) (d : Nat) :
    List.Chain' (fun p q : Prog => p.start < q.start ∧ p.stop = q.start)
      (parsePipeRows rows d) := by
  unfold parsePipeRows
  refine boomerangFinish_chain ?_
  intro o ho r hr
  subst hr
  obtain ⟨ln, -, hln⟩ := List.mem_map.mp ho
  exact pipeRowExtract_t_lt hln

theorem fallbackTimeScan_chain (lines : List (List Char)) (d : Nat) :
    List.Chain' (fun p q : Prog => p.start < q.start ∧ p.stop = q.start)
      (fallbackTimeScan lines d) := by
  unfold fallbackTimeScan
  refine boomerangFinish_chain ?_
  intro o ho r hr
  subst hr
  obtain ⟨ln, -, hln⟩ := List.mem_map.mp ho
  exact fallbackLineExtract_t_lt hln

/-- The chain property of the whole strategy pipeline. -/
theorem mainPrograms_chain (tables : List HTable) (pipeRows : List (List Char))
    (lines : List (List Char)) (d : Nat) :
    List.Chain' (fun p q : Prog => p.start < q.start ∧ p.stop = q.start)
      (mainPrograms tables pipeRows lines d) := by
  unfold mainPrograms
  dsimp only
  split
  · cases hp : pipeRows.isEmpty with
    | true =>
      simp only [hp, if_true]
      simp only [List.isEmpty_nil, if_true]
      exact fallbackTimeScan_chain lines d
    | false =>
      simp only [hp, Bool.false_eq_true, if_false]
      split
      · exact fallbackTimeScan_chain lines d
      · exact parsePipeRows_chain pipeRows d
  · exact parseHtmlTable_chain tables d

/-- Relational transport of a chain to positional form. -/
theorem chain'_getElem? {α : Type} {R : α → α → Prop} :
    ∀ {l : List α} {i : Nat} {x y : α}, List.Chain' R l →
      l[i]? = some x → l[i + 1]? = some y → R x y := by
  intro l
  induction l with
  | nil => intro i x y h hx; simp at hx
  | cons a l ih =>
    intro i x y h hx hy
    cases i with
    | zero =>
      simp only [List.getElem?_cons_zero, Option.some.injEq] at hx
      subst hx
      cases l with
      | nil => simp at hy
      | cons b l2 =>
        simp only [List.getElem?_cons_succ, List.getElem?_cons_zero, Option.some.injEq] at hy
        subst hy
        exact (List.chain'_cons.mp h).1
    | succ j =>
      simp only [List.getElem?_cons_succ] at hx hy
      exact ih (List.Chain'.tail h) hx hy

/-! ## Fixture inputs for the concrete scenarios -/

/-- The rollover example table (spec §8): times 23:30, 00:15, 06:00. -/
def rolloverTable : HTable :=
  [[⟨true, cl "Thời gian"⟩, ⟨true, cl "Chương trình"⟩],
   [⟨false, cl "23:30"⟩, ⟨false, cl "Phim A"⟩],
   [⟨false, cl "00:15"⟩, ⟨false, cl "Phim B"⟩],
   [⟨false, cl "06:00"⟩, ⟨false, cl "Phim C"⟩]]

/-- The stop-inference example (spec §8): 08:00 `A`, 08:30 `B`, no durations. -/
def stopInferTable : HTable :=
  [[⟨true, cl "Thời gian"⟩],
   [⟨false, cl "08:00"⟩, ⟨false, cl "A"⟩],
   [⟨false, cl "08:30"⟩, ⟨false, cl "B"⟩]]

/-- A row repeated twice verbatim (deduplication scenario). -/
def dupRowTable : HTable :=
  [[⟨true, cl "Thời gian"⟩],
   [⟨false, cl "08:00"⟩, ⟨false, cl "Phim A"⟩],
   [⟨false, cl "08:00"⟩, ⟨false, cl "Phim A"⟩]]

/-- A final row whose duration cell parses to zero minutes. -/
def zeroDurTable : HTable :=
  [[⟨true, cl "Thời gian"⟩],
   [⟨false, cl "20:00"⟩, ⟨false, cl "Phim"⟩, ⟨false, cl "x"⟩, ⟨false, cl "0"⟩]]

/-- A schedule-like table whose header matches only the bare keyword
`"thoi"`, not `"thời gian"`, `"thoi gian"` or `"time"`. -/
def thoiTable : HTable :=
  [[⟨true, cl "Thoi su buoi toi"⟩],
   [⟨false, cl "19:00"⟩, ⟨false, cl "Tin tuc"⟩]]

/-- A later table whose header contains `"time"` and has a schedule row. -/
def timeTable : HTable :=
  [[⟨true, cl "Time"⟩],
   [⟨false, cl "20:00"⟩, ⟨false, cl "Phim"⟩]]

/-! ## Claim theorems -/

/-- Claim C1 (confirmed).  Rollover: whenever the candidate start
`current_day * 1440 + t` does not exceed `last_start`, the step accepts
`candidate + 1440` as the new `last_start` and the day cursor advances to
the next calendar day, so the accepted start lies on a later calendar day
than the cursor; and on the spec's example (times 23:30, 00:15, 06:00 with
anchor day `0` standing for 2024-01-01) the produced starts are minute 1410
of day 0 (2024-01-01T23:30), minute 15 of day 1 (2024-01-02T00:15) and
minute 360 of day 1 (2024-01-02T06:00). -/
theorem c1_rollover :
    (∀ (st : PState) (r : RowData) (v : Nat), st.last = some v → r.t < 1440 →
        st.day * 1440 + r.t ≤ v →
        (coreStep st (some r)).last = some (st.day * 1440 + r.t + 1440) ∧
          (coreStep st (some r)).day = st.day + 1) ∧
      (parseHtmlTable [rolloverTable] 0).map Prog.start = [1410, 1455, 1800] := by
  constructor
  · intro st r v hv ht hc
    obtain ⟨seen, last, day, out⟩ := st
    dsimp only at hv hc ⊢
    subst hv
    dsimp only [coreStep]
    simp only [if_pos hc]
    refine ⟨?_, ?_⟩
    · split <;> rfl
    · split <;> (dsimp only; omega)
  · decide

theorem c1_rollover_witness :
    (coreStep ⟨[], some 1410, 0, []⟩ (some ⟨15, 30, cl "Phim B", []⟩)).last = some 1455
      ∧ (coreStep ⟨[], some 1410, 0, []⟩ (some ⟨15, 30, cl "Phim B", []⟩)).day = 1
      ∧ (parseHtmlTable [rolloverTable] 0).map Prog.start = [1410, 1455, 1800] := by
  have h := c1_rollover.1 ⟨[], some 1410, 0, []⟩ ⟨15, 30, cl "Phim B", []⟩ 1410 rfl
    (by decide) (by decide)
  exact ⟨by simpa using h.1, by simpa using h.2, c1_rollover.2⟩

/-- Claim C2 as stated is false: `parse_antv_html` (craw1.py) keys its dedup
on the raw time token and applies no rollover, so two blocks sharing token
`08:00` with distinct titles produce equal starts — violating strict
ordering — and the stop-inference fallback gives the first a stop of
`start + 30`, which exceeds the second's start — violating non-overlap. -/
theorem c2_counterexample :
    parseAntv [[cl "08:00", cl "Phim A"], [cl "08:00", cl "Phim B"]] 0
        = [⟨480, 510, cl "Phim A", []⟩, ⟨480, 510, cl "Phim B", []⟩]
      ∧ ¬(480 < 480) ∧ ¬(510 ≤ 480) :=
  ⟨by decide, by omega, by omega⟩

/-- Claim C2 amended: every guide produced by the boomerang pipeline (any
strategy: structured table, pipe rows, or the fallback scan) is strictly
increasing by start and non-overlapping; `parse_antv_html` violates both
when two accepted entries share a start instant. -/
theorem c2_amended (tables : List HTable) (pipeRows lines : List (List Char)) (d : Nat) :
    List.Chain' (fun p q : Prog => p.start < q.start ∧ p.stop ≤ q.start)
      (mainPrograms tables pipeRows lines d) :=
  (mainPrograms_chain tables pipeRows lines d).imp
    (fun _ _ hab => ⟨hab.1, le_of_eq hab.2⟩)

/-- Claim C3 as stated is false on the boomerang parsers: for the spec's own
example rows (08:00 `A`, 08:30 `B`, no explicit durations), the duration
scan over the row text matches the row's own time token (`08:30` parses as
510 minutes), so `B.stop` is minute 1020 (17:00), not `start + 30 = 540`
(09:00) as the claim requires. -/
theorem c3_counterexample :
    parseHtmlTable [stopInferTable] 0
        = [⟨480, 510, cl "A", []⟩, ⟨510, 1020, cl "B", []⟩]
      ∧ (1020 : Nat) ≠ 510 + 30 :=
  ⟨by decide, by omega⟩

/-- Claim C4 as stated is false: in the boomerang parsers the rollover rule
fires on the repeated candidate (`candidate <= last_start`) before the dedup
key is computed, so feeding the identical `(time_text, title_text)` pair
twice yields two programmes, the second anchored one day later — not one. -/
theorem c4_counterexample :
    parseHtmlTable [dupRowTable] 0
        = [⟨480, 1920, cl "Phim A", []⟩, ⟨1920, 2400, cl "Phim A", []⟩]
      ∧ (parseHtmlTable [dupRowTable] 0).length ≠ 1 :=
  ⟨by decide, by decide⟩

/-- Claim C6 as stated is false: a parsed duration of zero is not replaced
by the default (only a missing duration is), so a final row with duration
cell `"0"` yields `stop = start`. -/
theorem c6_counterexample :
    parseHtmlTable [zeroDurTable] 0 = [⟨1200, 1200, cl "Phim", cl "x"⟩]
      ∧ ¬(1200 > 1200) :=
  ⟨by decide, by omega⟩

/-- Claim C6 amended: in every guide produced by the boomerang pipeline,
each non-final programme satisfies `stop = next start > start`; the final
programme's stop is `start + parsed duration`, which equals `start` exactly
when the parsed duration is zero (no default substitution occurs then). -/
theorem c6_amended (tables : List HTable) (pipeRows lines : List (List Char)) (d i : Nat)
    {p q : Prog} (hp : (mainPrograms tables pipeRows lines d)[i]? = some p)
    (hq : (mainPrograms tables pipeRows lines d)[i + 1]? = some q) :
    p.stop = q.start ∧ p.start < p.stop := by
  have h := chain'_getElem? (mainPrograms_chain tables pipeRows lines d) hp hq
  exact ⟨h.2, h.2 ▸ h.1⟩

theorem c6_amended_witness :
    ∃ p q : Prog,
      (mainPrograms [stopInferTable] [] [] 0)[0]? = some p
        ∧ (mainPrograms [stopInferTable] [] [] 0)[1]? = some q
        ∧ p.stop = q.start ∧ p.start < p.stop := by
  refine ⟨⟨480, 510, cl "A", []⟩, ⟨510, 1020, cl "B", []⟩, by decide, by decide, ?_⟩
  exact c6_amended [stopInferTable] [] [] 0 0 (by decide) (by decide)

/-- Claim C7 (confirmed).  The pipeline tries the structured-table strategy
first, falls to the pipe strategy only when the first yields zero entries
(and the pipe extractor found rows), then to the fallback scan only when the
second also yields zero; when every strategy yields zero, the written guide
is empty but still carries the channel declaration.  All functions involved
are total, so no input raises. -/
theorem c7_pipeline (tables : List HTable) (pipeRows lines : List (List Char)) (d : Nat) :
    (parseHtmlTable tables d ≠ [] →
        mainPrograms tables pipeRows lines d = parseHtmlTable tables d)
    ∧ (parseHtmlTable tables d = [] →
        (if pipeRows.isEmpty then [] else parsePipeRows pipeRows d) ≠ [] →
        mainPrograms tables pipeRows lines d
          = (if pipeRows.isEmpty then [] else parsePipeRows pipeRows d))
    ∧ (parseHtmlTable tables d = [] →
        (if pipeRows.isEmpty then [] else parsePipeRows pipeRows d) = [] →
        mainPrograms tables pipeRows lines d = fallbackTimeScan lines d)
    ∧ (parseHtmlTable tables d = [] →
        (if pipeRows.isEmpty then [] else parsePipeRows pipeRows d) = [] →
        fallbackTimeScan lines d = [] →
        writeXml (mainPrograms tables pipeRows lines d) = ⟨cl "cartoonito", []⟩) := by
  refine ⟨?_, ?_, ?_, ?_⟩
  · intro h1
    simp [mainPrograms, List.isEmpty_iff, h1]
  · intro h1 h2
    simp only [mainPrograms]
    rw [if_pos (by rw [h1]; rfl), if_neg (fun hb => h2 (List.isEmpty_iff.mp hb))]
  · intro h1 h2
    simp only [mainPrograms]
    rw [if_pos (by rw [h1]; rfl), if_pos (by rw [h2]; rfl)]
  · intro h1 h2 h3
    have hmain : mainPrograms tables pipeRows lines d = fallbackTimeScan lines d := by
      simp only [mainPrograms]
      rw [if_pos (by rw [h1]; rfl), if_pos (by rw [h2]; rfl)]
    rw [hmain, h3]
    rfl

theorem c7_pipeline_witness :
    writeXml (mainPrograms [] [] [] 0) = ⟨cl "cartoonito", []⟩ :=
  (c7_pipeline [] [] [] 0).2.2.2 rfl rfl rfl

/-- Claim C8 as stated is false for the boomerang fallback scan, which
applies no noise filter: the line `19:00 Hotline: 0909123456` yields a
programme titled after the hotline phone number, although that title matches
both the phone-number shape and the hotline keyword filter of craw1.py. -/
theorem c8_counterexample :
    fallbackTimeScan [cl "19:00 Hotline: 0909123456"] 0
        = [⟨1140, 1170, cl "Hotline: 0909123456", []⟩]
      ∧ phoneSearch (cl "Hotline: 0909123456") = true
      ∧ hotlineSearch (cl "Hotline: 0909123456") = true :=
  ⟨by decide, by decide, by decide⟩

/-- Claim C9 as stated is false: the generic extractor of craw1.py emits
`title or "Unknown"`, so a node whose text is just a time token (no title
found anywhere) produces a programme with the fabricated placeholder title
`"Unknown"` instead of being discarded. -/
theorem c9_counterexample :
    crawlGenericNode 0 (cl "19:00") none = some (1140, cl "Unknown") := by decide

/-- Claim C10 as stated is false: the keyword set includes the bare
`"thoi"`, so a first table whose header contains `"thoi"` but none of
`"thời gian"`, `"thoi gian"`, `"time"` is selected and row-parsed, and the
later table whose header says `"time"` contributes nothing — the claimed
keyword-three selection would have picked the second table. -/
theorem c10_counterexample :
    parseHtmlTable [thoiTable, timeTable] 0 = [⟨1140, 2280, cl "Tin tuc", []⟩]
      ∧ containsSub (headerText thoiTable) (cl "thời gian") = false
      ∧ containsSub (headerText thoiTable) (cl "thoi gian") = false
      ∧ containsSub (headerText thoiTable) (cl "time") = false
      ∧ headerHit thoiTable = true
      ∧ parseHtmlTable [timeTable] 0 = [⟨1200, 2400, cl "Phim", []⟩] :=
  ⟨by decide, by decide, by decide, by decide, by decide, by decide⟩

/-! ## Positional characterization of the stop-inference passes -/

theorem antvInferStops_getElem? :
    ∀ (l : List (Nat × List Char × List Char)) (i : Nat) (x y : Nat × List Char × List Char),
      l[i]? = some x → l[i + 1]? = some y →
      (antvInferStops l)[i]? =
        some ⟨x.1, if y.1 ≤ x.1 then x.1 + 30 else y.1, x.2.1, x.2.2⟩ := by
  intro l
  induction l with
  | nil => intro i x y hx _; simp at hx
  | cons a l ih =>
    intro i x y hx hy
    cases l with
    | nil => simp at hy
    | cons b l2 =>
      cases i with
      | zero =>
        simp only [List.getElem?_cons_zero, Option.some.injEq] at hx
        simp only [List.getElem?_cons_succ, List.getElem?_cons_zero, Option.some.injEq] at hy
        subst hx hy
        simp [antvInferStops]
      | succ j =>
        simp only [List.getElem?_cons_succ] at hx hy
        simp only [antvInferStops, List.getElem?_cons_succ]
        exact ih j x y hx (by simp only [List.getElem?_cons_succ]; exact hy)

theorem antvInferStops_getLast? :
    ∀ (l : List (Nat × List Char × List Char)) (x : Nat × List Char × List Char),
      l.getLast? = some x →
      (antvInferStops l).getLast? = some ⟨x.1, x.1 + 30, x.2.1, x.2.2⟩ := by
  intro l
  induction l with
  | nil => intro x hx; simp at hx
  | cons a l ih =>
    intro x hx
    cases l with
    | nil =>
      simp only [List.getLast?_singleton, Option.some.injEq] at hx
      subst hx
      rfl
    | cons b l2 =>
      rw [List.getLast?_cons_cons] at hx
      have := ih x hx
      cases l2 with
      | nil =>
        simp only [antvInferStops]
        rw [List.getLast?_cons_cons]
        exact this
      | cons c l3 =>
        simp only [antvInferStops] at this ⊢
        rw [List.getLast?_cons_cons]
        exact this

theorem patchStops_getElem? :
    ∀ (l : List Prog) (i : Nat) (p q : Prog),
      l[i]? = some p → l[i + 1]? = some q →
      (patchStops l)[i]? = some (if p.start < q.start then withStop p q.start else p) := by
  intro l
  induction l with
  | nil => intro i p q hp _; simp at hp
  | cons a l ih =>
    intro i p q hp hq
    cases l with
    | nil => simp at hq
    | cons b l2 =>
      cases i with
      | zero =>
        simp only [List.getElem?_cons_zero, Option.some.injEq] at hp
        simp only [List.getElem?_cons_succ, List.getElem?_cons_zero, Option.some.injEq] at hq
        subst hp hq
        simp [patchStops]
      | succ j =>
        simp only [List.getElem?_cons_succ] at hp hq
        simp only [patchStops, List.getElem?_cons_succ]
        exact ih j p q hp (by simp only [List.getElem?_cons_succ]; exact hq)

theorem patchStops_getLast? :
    ∀ (l : List Prog) (p : Prog), l.getLast? = some p →
      (patchStops l).getLast? = some p := by
  intro l
  induction l with
  | nil => intro p hp; simp at hp
  | cons a l ih =>
    intro p hp
    cases l with
    | nil =>
      simpa [patchStops] using hp
    | cons b l2 =>
      rw [List.getLast?_cons_cons] at hp
      have := ih p hp
      rw [patchStops_cons]
      cases hpt : patchStops (b :: l2) with
      | nil => simp [patchStops_cons] at hpt
      | cons c l3 =>
        rw [hpt] at this
        rw [List.getLast?_cons_cons]
        exact this

/-- Claim C3 amended.  Stop inference is a successor back-patch in both
parsers: (a) in `parse_antv_html` (which carries no explicit durations),
entry `i`'s stop is `start[i+1]` when `start[i+1] > start[i]` and
`start[i] + 30` otherwise, and the final entry's stop is `start + 30`; (b)
in the boomerang parsers, an entry followed by a strictly greater start gets
`stop = start[i+1]` — overriding any explicit duration — otherwise its
pre-computed `start + duration` stop is kept, and the final entry keeps it
as well; (c) the spec's stop-inference example does hold in
`parse_antv_html`: 08:00/08:30 entries yield stops 08:30 and 09:00. -/
theorem c3_amended :
    (∀ (l : List (Nat × List Char × List Char)) (i : Nat)
        (x y : Nat × List Char × List Char),
        l[i]? = some x → l[i + 1]? = some y →
        (antvInferStops l)[i]? =
          some ⟨x.1, if y.1 ≤ x.1 then x.1 + 30 else y.1, x.2.1, x.2.2⟩)
    ∧ (∀ (l : List (Nat × List Char × List Char)) (x : Nat × List Char × List Char),
        l.getLast? = some x →
        (antvInferStops l).getLast? = some ⟨x.1, x.1 + 30, x.2.1, x.2.2⟩)
    ∧ (∀ (l : List Prog) (i : Nat) (p q : Prog),
        l[i]? = some p → l[i + 1]? = some q →
        (patchStops l)[i]? = some (if p.start < q.start then withStop p q.start else p))
    ∧ (∀ (l : List Prog) (p : Prog), l.getLast? = some p →
        (patchStops l).getLast? = some p)
    ∧ parseAntv [[cl "08:00", cl "Phim A"], [cl "08:30", cl "Phim B"]] 0
        = [⟨480, 510, cl "Phim A", []⟩, ⟨510, 540, cl "Phim B", []⟩] :=
  ⟨antvInferStops_getElem?, antvInferStops_getLast?, patchStops_getElem?,
   patchStops_getLast?, by decide⟩

theorem c3_amended_witness :
    (antvInferStops [(480, cl "Phim A", []), (510, cl "Phim B", [])])[0]?
        = some ⟨480, 510, cl "Phim A", []⟩
      ∧ (patchStops [⟨480, 960, cl "A", []⟩, ⟨510, 1020, cl "B", []⟩])[0]?
        = some ⟨480, 510, cl "A", []⟩
      ∧ (patchStops [⟨480, 960, cl "A", []⟩, ⟨510, 1020, cl "B", []⟩]).getLast?
        = some ⟨510, 1020, cl "B", []⟩ := by
  refine ⟨?_, ?_, ?_⟩
  · have h := c3_amended.1 [(480, cl "Phim A", []), (510, cl "Phim B", [])] 0
      (480, cl "Phim A", []) (510, cl "Phim B", []) rfl rfl
    simpa using h
  · have h := c3_amended.2.2.1 [⟨480, 960, cl "A", []⟩, ⟨510, 1020, cl "B", []⟩] 0
      ⟨480, 960, cl "A", []⟩ ⟨510, 1020, cl "B", []⟩ rfl rfl
    simpa [withStop] using h
  · exact c3_amended.2.2.2.1 [⟨480, 960, cl "A", []⟩, ⟨510, 1020, cl "B", []⟩]
      ⟨510, 1020, cl "B", []⟩ rfl

/-- Claim C4 amended.  Feeding the identical `(time_text, title_text)` pair
twice in immediate sequence through the boomerang normalizer yields two
programmes, not one: the duplicate's candidate start equals `last_start`, so
the rollover rule moves it to the following calendar day before the
`(start, normalized title)` key is computed, and the shifted key is new.
(The seen-key skip path, which would advance `last_start`, never fires for
consecutive duplicates because accepted starts strictly increase.)  Stated
for every anchor day `d`: the 08:00 pair produces starts at minute 480 of
day `d` and minute 480 of day `d + 1`. -/
theorem c4_amended (d : Nat) :
    parseHtmlTable [dupRowTable] d
      = [⟨d * 1440 + 480, d * 1440 + 1920, cl "Phim A", []⟩,
         ⟨d * 1440 + 1920, d * 1440 + 2400, cl "Phim A", []⟩] := by
  have hnk : normKey (cl "Phim A") = cl "phim a" := by decide
  have h1 : findTable [dupRowTable] = some dupRowTable := by decide
  have h2 : tableRowDatas dupRowTable
      = [none, some ⟨480, 480, cl "Phim A", []⟩, some ⟨480, 480, cl "Phim A", []⟩] := by
    decide
  unfold parseHtmlTable
  rw [h1]
  dsimp only
  rw [h2]
  unfold boomerangFinish coreRun
  simp only [List.foldl_cons, List.foldl_nil]
  have hstep0 : coreStep ⟨[], none, d, []⟩ none = ⟨[], none, d, []⟩ := rfl
  rw [hstep0]
  have hstep1 : coreStep ⟨[], none, d, []⟩ (some ⟨480, 480, cl "Phim A", []⟩)
      = ⟨[(d * 1440 + 480, cl "phim a")], some (d * 1440 + 480), d,
         [⟨d * 1440 + 480, d * 1440 + 480 + 480, cl "Phim A", []⟩]⟩ := by
    dsimp only [coreStep]
    rw [hnk]
    rw [if_neg (by simp [listHas])]
    rfl
  rw [hstep1]
  have hstep2 : coreStep ⟨[(d * 1440 + 480, cl "phim a")], some (d * 1440 + 480), d,
        [⟨d * 1440 + 480, d * 1440 + 480 + 480, cl "Phim A", []⟩]⟩
        (some ⟨480, 480, cl "Phim A", []⟩)
      = ⟨[(d * 1440 + 480 + 1440, cl "phim a"), (d * 1440 + 480, cl "phim a")],
         some (d * 1440 + 480 + 1440), (d * 1440 + 480 + 1440) / 1440,
         [⟨d * 1440 + 480, d * 1440 + 480 + 480, cl "Phim A", []⟩,
          ⟨d * 1440 + 480 + 1440, d * 1440 + 480 + 1440 + 480, cl "Phim A", []⟩]⟩ := by
    dsimp only [coreStep]
    rw [hnk]
    simp only [if_pos (show d * 1440 + 480 ≤ d * 1440 + 480 from le_refl _)]
    rw [if_neg ?hne]
    case hne =>
      simp only [listHas, List.any_cons, List.any_nil, Bool.or_false, decide_eq_true_eq,
        Prod.mk.injEq]
      intro hcon
      omega
    rfl
  rw [hstep2]
  dsimp only
  unfold pySort
  rw [List.Sorted.insertionSort_eq (by
    refine List.pairwise_cons.mpr ⟨?_, ?_⟩
    · intro q hq
      simp only [List.mem_singleton] at hq
      subst hq
      dsimp only
      omega
    · simp)]
  rw [patchStops_cons, patchStops_cons]
  dsimp only
  rw [if_pos (show d * 1440 + 480 < d * 1440 + 480 + 1440 from by omega)]
  simp only [withStop, patchStops, List.cons.injEq, Prog.mk.injEq]

/-- Claim C9 amended.  When the generic extractor finds a time token but no
title anywhere (the residual text after removing the token is empty and no
title sub-node exists), the entry is not discarded: it is emitted with the
fabricated placeholder title `"Unknown"` (provided the token parses as a
valid clock time). -/
theorem c9_amended (base : Nat) (text : List Char) (raw : List Char) (s : Nat)
    (h1 : timeTokFirst text = some raw)
    (h2 : trimBoth (removeAllTok raw text) = [])
    (h3 : parseTimeFromText base (replSep raw) = some s) :
    crawlGenericNode base text none = some (s, cl "Unknown") := by
  unfold crawlGenericNode
  rw [h1]
  dsimp only
  rw [h2]
  simp only [List.isEmpty_nil, if_true]
  rw [h3]

theorem c9_amended_witness :
    timeTokFirst (cl "19:00") = some (cl "19:00")
      ∧ crawlGenericNode 0 (cl "19:00") none = some (1140, cl "Unknown") :=
  ⟨by decide, c9_amended 0 (cl "19:00") (cl "19:00") 1140 (by decide) (by decide) (by decide)⟩

/-- Claim C10 amended.  The structured-table extractor's keyword set is
`("thời gian", "thoi gian", "time", "thoi")` — including the bare `"thoi"` —
over the first six cells; only the first matching table in document order is
row-parsed, and every table after it contributes nothing, even when it also
matches and contains schedule rows. -/
theorem c10_amended (ts1 : List HTable) (t : HTable) (ts2 : List HTable) (d : Nat)
    (hmiss : ∀ t2 ∈ ts1, headerHit t2 = false) (hhit : headerHit t = true) :
    parseHtmlTable (ts1 ++ t :: ts2) d = parseHtmlTable [t] d := by
  have hfind : ∀ (l : List HTable), (∀ t2 ∈ l, headerHit t2 = false) →
      findTable (l ++ t :: ts2) = some t := by
    intro l
    induction l with
    | nil =>
      intro _
      simp [findTable, hhit]
    | cons a l2 ih =>
      intro hm
      have ha : headerHit a = false := hm a (by simp)
      simp only [List.cons_append, findTable, ha, Bool.false_eq_true, if_false]
      exact ih (fun t2 ht2 => hm t2 (by simp [ht2]))
  unfold parseHtmlTable
  rw [hfind ts1 hmiss]
  rw [show findTable [t] = some t from by simp [findTable, hhit]]

theorem c10_amended_witness :
    parseHtmlTable [thoiTable, timeTable] 0 = parseHtmlTable [thoiTable] 0 :=
  c10_amended [] thoiTable [timeTable] 0 (by simp) (by decide)

/-! ## Titles accepted by `parse_antv_html` pass the contact filters -/

/-- Shorthand for a title that matches none of the four per-title filters of
craw1.py line 345. -/
def cleanTitle (t : List Char) : Prop :=
  phoneSearch t = false ∧ emailSearch t = false
    ∧ hotlineSearch t = false ∧ contactSearch t = false

theorem antvBlockCandidate_clean {b : Block} {it : List Char × List Char × List Char}
    (h : antvBlockCandidate b = some it) : cleanTitle it.2.1 := by
  simp only [antvBlockCandidate] at h
  split at h
  · exact absurd h (by simp)
  · split at h
    · exact absurd h (by simp)
    · split at h
      · exact absurd h (by simp)
      · split at h
        · exact absurd h (by simp)
        · rename_i hcond
          simp only [Bool.or_eq_true, not_or, Bool.not_eq_true] at hcond
          simp only [Option.some.injEq] at h
          subst h
          exact ⟨hcond.1.1.1, hcond.1.1.2, hcond.1.2, hcond.2⟩

theorem antvStep_clean {base : Nat} {acc : AntvAcc} {b : Block}
    (h : ∀ x ∈ acc.items, cleanTitle x.2.1) :
    ∀ x ∈ (antvStep base acc b).items, cleanTitle x.2.1 := by
  intro x hx
  simp only [antvStep] at hx
  split at hx
  · exact h x hx
  · rename_i it hit
    split at hx
    · exact h x hx
    · split at hx
      · exact h x hx
      · dsimp only at hx
        simp only [List.mem_append, List.mem_singleton] at hx
        rcases hx with hx | hx
        · exact h x hx
        · subst hx
          exact antvBlockCandidate_clean hit

theorem antvFold_clean {base : Nat} :
    ∀ (bs : List Block) (acc : AntvAcc), (∀ x ∈ acc.items, cleanTitle x.2.1) →
      ∀ x ∈ (bs.foldl (antvStep base) acc).items, cleanTitle x.2.1 := by
  intro bs
  induction bs with
  | nil => intro acc h; exact h
  | cons b bs2 ih =>
    intro acc h
    simp only [List.foldl_cons]
    exact ih (antvStep base acc b) (antvStep_clean h)

theorem antvInferStops_title :
    ∀ (l : List (Nat × List Char × List Char)) (p : Prog), p ∈ antvInferStops l →
      ∃ x ∈ l, p.title = x.2.1 := by
  intro l
  induction l with
  | nil => intro p hp; simp [antvInferStops] at hp
  | cons a l2 ih =>
    intro p hp
    cases l2 with
    | nil =>
      simp only [antvInferStops, List.mem_singleton] at hp
      subst hp
      exact ⟨a, by simp⟩
    | cons b l3 =>
      simp only [antvInferStops, List.mem_cons] at hp
      rcases hp with hp | hp
      · subst hp
        exact ⟨a, by simp⟩
      · obtain ⟨x, hx, hpx⟩ := ih p hp
        exact ⟨x, by simp [hx], hpx⟩

/-- Claim C8 amended.  In `parse_antv_html`, a candidate block matching the
phone-number, email, hotline, contact or advertising filters is skipped
outright, and the per-title filters are re-applied to the normalized title;
consequently no emitted programme's title matches the phone-number shape
(`0` at a word boundary followed by eight or more digits), the email shape,
or the hotline/contact keyword sets.  The boomerang generic fallback scan,
by contrast, applies no noise filter at all (see the counterexample). -/
theorem c8_amended (blocks : List Block) (base : Nat) :
    ∀ p ∈ parseAntv blocks base,
      phoneSearch p.title = false ∧ emailSearch p.title = false
        ∧ hotlineSearch p.title = false ∧ contactSearch p.title = false := by
  intro p hp
  unfold parseAntv at hp
  obtain ⟨x, hx, hpx⟩ := antvInferStops_title _ p hp
  have hxm : x ∈ ((dedupTextsGo [] blocks).foldl (antvStep base) ⟨[], []⟩).items := by
    have hperm := List.perm_insertionSort
      (fun a b : Nat × List Char × List Char => a.1 ≤ b.1)
      (((dedupTextsGo [] blocks).foldl (antvStep base) ⟨[], []⟩).items)
    exact hperm.mem_iff.mp hx
  have := antvFold_clean (dedupTextsGo [] blocks) ⟨[], []⟩ (by simp) x hxm
  rw [hpx]
  exact this

theorem c8_amended_witness :
    (⟨480, 510, cl "Phim A", []⟩ : Prog) ∈ parseAntv [[cl "08:00", cl "Phim A"]] 0
      ∧ phoneSearch (cl "Phim A") = false ∧ emailSearch (cl "Phim A") = false
      ∧ hotlineSearch (cl "Phim A") = false ∧ contactSearch (cl "Phim A") = false := by
  refine ⟨by decide, ?_⟩
  exact c8_amended [[cl "08:00", cl "Phim A"]] 0 ⟨480, 510, cl "Phim A", []⟩ (by decide)

/-! ## Claim C5: a spec-modelled recognizer and its equivalence with TIME_RE

The definitions in this subsection are written from the claim's words
(amended to TIME_RE's actual separators and boundaries), not from the
source; the refinement theorem compares them with the source-modelled
scanner `timeSearch`. -/

theorem char_eq_of_toNat {a b : Char} (h : a.toNat = b.toNat) : a = b :=
  Char.ext (UInt32.ext h)

/-- Spec-modelled: a five-character clock token — two hour digits whose
value is at most 23, a separator ':' or '.', two minute digits whose value
is at most 59 — followed by a word boundary. -/
def specTokFive (cs : List Char) : Option (List Char × Nat × Nat × List Char) :=
  match cs with
  | a :: b :: s :: m1 :: m2 :: rest =>
    if isDig a && isDig b && (s = ':' || s = '.') && isDig m1 && isDig m2
        && decide (10 * digVal a + digVal b ≤ 23)
        && decide (10 * digVal m1 + digVal m2 ≤ 59) && nonWordHead rest then
      some ([a, b, s, m1, m2], 10 * digVal a + digVal b,
        10 * digVal m1 + digVal m2, rest)
    else none
  | _ => none

/-- Spec-modelled: the four-character form with a one-digit hour (whose
value is trivially at most 23). -/
def specTokFour (cs : List Char) : Option (List Char × Nat × Nat × List Char) :=
  match cs with
  | a :: s :: m1 :: m2 :: rest =>
    if isDig a && (s = ':' || s = '.') && isDig m1 && isDig m2
        && decide (digVal a ≤ 23)
        && decide (10 * digVal m1 + digVal m2 ≤ 59) && nonWordHead rest then
      some ([a, s, m1, m2], digVal a, 10 * digVal m1 + digVal m2, rest)
    else none
  | _ => none

/-- Spec-modelled: a clock token at this position, either form (they are
mutually exclusive: the second character is a digit in one and a separator
in the other). -/
def specTokAt (cs : List Char) : Option (List Char × Nat × Nat × List Char) :=
  match specTokFive cs with
  | some r => some r
  | none => specTokFour cs

/-- Spec-modelled scanner: the first position at a word boundary carrying a
clock token wins, and the token is normalized by standardizing the separator
to ':' (without zero-padding: the token keeps its length). -/
def specSearchGo : List Char → Bool → List Char → Option TimeMatch
  | _, _, [] => none
  | pre, prevWord, c :: cs =>
    match (if prevWord then none else specTokAt (c :: cs)) with
    | some (tok, hh, mm, post) => some ⟨pre.reverse, normTok tok, hh, mm, post⟩
    | none => specSearchGo (c :: pre) (isWordChar c) cs

def specSearch (l : List Char) : Option TimeMatch := specSearchGo [] false l

theorem sepMinOk_pos {s m1 m2 : Char} {rest : List Char}
    (h : ((s = ':' || s = '.') && inRangeC m1 48 53 && isDig m2
      && nonWordHead rest) = true) :
    sepMinOk (s :: m1 :: m2 :: rest)
      = some (s, m1, m2, 10 * digVal m1 + digVal m2, rest) := by
  simp only [sepMinOk]
  rw [if_pos h]

theorem sepMinOk_neg {s m1 m2 : Char} {rest : List Char}
    (h : ((s = ':' || s = '.') && inRangeC m1 48 53 && isDig m2
      && nonWordHead rest) = false) :
    sepMinOk (s :: m1 :: m2 :: rest) = none := by
  simp only [sepMinOk]
  rw [if_neg (by simp [h])]

theorem timeAlt1_eq_specTokFour (a : Char) (tail : List Char) :
    timeAlt1 a tail = specTokFour (a :: tail) := by
  match tail with
  | [] => simp [timeAlt1, specTokFour, sepMinOk, ite_self]
  | [s] => simp [timeAlt1, specTokFour, sepMinOk, ite_self]
  | [s, m1] => simp [timeAlt1, specTokFour, sepMinOk, ite_self]
  | s :: m1 :: m2 :: rest =>
    simp only [timeAlt1, specTokFour]
    cases ha : isDig a with
    | false =>
      rw [if_neg (by simp [ha]), if_neg (by simp [ha])]
    | true =>
      rw [if_pos rfl]
      cases hsep : (s = ':' || s = '.') with
      | false =>
        rw [sepMinOk_neg (by simp [hsep]), if_neg (by simp [hsep])]
      | true =>
        cases hm2 : isDig m2 with
        | false => rw [sepMinOk_neg (by simp [hm2]), if_neg (by simp [hm2])]
        | true =>
          cases hw : nonWordHead rest with
          | false => rw [sepMinOk_neg (by simp [hw]), if_neg (by simp [hw])]
          | true =>
            cases hr : inRangeC m1 48 53 with
            | true =>
              rw [sepMinOk_pos (by simp [hsep, hm2, hw, hr])]
              have hm1 : isDig m1 = true := by
                simp only [isDig, inRangeC, Bool.and_eq_true, decide_eq_true_eq] at hr ⊢
                omega
              have hha : decide (digVal a ≤ 23) = true := by
                simp only [isDig, inRangeC, Bool.and_eq_true, decide_eq_true_eq] at ha
                simp only [digVal, decide_eq_true_eq]
                omega
              have hmm : decide (10 * digVal m1 + digVal m2 ≤ 59) = true := by
                simp only [isDig, inRangeC, Bool.and_eq_true, decide_eq_true_eq] at hr hm2
                simp only [digVal, decide_eq_true_eq]
                omega
              rw [if_pos (by simp [ha, hsep, hm1, hm2, hha, hmm, hw])]
            | false =>
              rw [sepMinOk_neg (by simp [hr])]
              cases hm1 : isDig m1 with
              | false => rw [if_neg (by simp [hm1])]
              | true =>
                have hmm : decide (10 * digVal m1 + digVal m2 ≤ 59) = false := by
                  simp only [isDig, inRangeC, Bool.and_eq_true, decide_eq_true_eq] at hm1 hm2
                  simp [inRangeC] at hr
                  simp only [digVal, decide_eq_false_iff_not]
                  omega
                rw [if_neg (by simp [hmm])]

theorem timeAlt23_eq_specTokFive (a b : Char) (rest : List Char) (cb : isDig b = true) :
    (match timeAlt2 a b rest with
      | some r => some r
      | none => timeAlt3 a b rest) = specTokFive (a :: b :: rest) := by
  have h2v : ('2' : Char).toNat = 50 := by decide
  match rest with
  | [] => simp [timeAlt2, timeAlt3, specTokFive, sepMinOk, ite_self]
  | [s] => simp [timeAlt2, timeAlt3, specTokFive, sepMinOk, ite_self]
  | [s, m1] => simp [timeAlt2, timeAlt3, specTokFive, sepMinOk, ite_self]
  | s :: m1 :: m2 :: rest2 =>
    simp only [timeAlt2, timeAlt3, specTokFive]
    cases hsep : (s = ':' || s = '.') with
    | false =>
      rw [sepMinOk_neg (by simp [hsep])]
      simp [hsep]
    | true =>
      cases hm2 : isDig m2 with
      | false =>
        rw [sepMinOk_neg (by simp [hm2])]
        simp [hm2]
      | true =>
        cases hw : nonWordHead rest2 with
        | false =>
          rw [sepMinOk_neg (by simp [hw])]
          simp [hw]
        | true =>
          cases hr : inRangeC m1 48 53 with
          | false =>
            rw [sepMinOk_neg (by simp [hr])]
            cases hm1 : isDig m1 with
            | false => simp [hm1]
            | true =>
              have hmm : decide (10 * digVal m1 + digVal m2 ≤ 59) = false := by
                simp only [isDig, inRangeC, Bool.and_eq_true, decide_eq_true_eq] at hm1 hm2
                simp [inRangeC] at hr
                simp only [digVal, decide_eq_false_iff_not]
                omega
              simp [hmm]
          | true =>
            rw [sepMinOk_pos (by simp [hsep, hr, hm2, hw])]
            have hm1 : isDig m1 = true := by
              simp only [isDig, inRangeC, Bool.and_eq_true, decide_eq_true_eq] at hr ⊢
              omega
            have hmm : decide (10 * digVal m1 + digVal m2 ≤ 59) = true := by
              simp only [isDig, inRangeC, Bool.and_eq_true, decide_eq_true_eq] at hr hm2
              simp only [digVal, decide_eq_true_eq]
              omega
            cases ca : inRangeC a 48 49 with
            | true =>
              have hda : isDig a = true := by
                simp only [isDig, inRangeC, Bool.and_eq_true, decide_eq_true_eq] at ca ⊢
                omega
              have hha : decide (10 * digVal a + digVal b ≤ 23) = true := by
                simp only [inRangeC, isDig, Bool.and_eq_true, decide_eq_true_eq] at ca cb
                simp only [digVal, decide_eq_true_eq]
                omega
              rw [if_pos (by simp [ca, cb])]
              dsimp only
              rw [if_pos (by simp [hda, cb, hsep, hm1, hm2, hha, hmm, hw])]
            | false =>
              rw [if_neg (by simp [ca])]
              dsimp only
              cases c3 : (a = '2' && inRangeC b 48 51) with
              | true =>
                simp only [Bool.and_eq_true, decide_eq_true_eq] at c3
                obtain ⟨ha2, hb3⟩ := c3
                subst ha2
                have hha : decide (10 * digVal '2' + digVal b ≤ 23) = true := by
                  simp only [inRangeC, Bool.and_eq_true, decide_eq_true_eq] at hb3
                  simp only [digVal, decide_eq_true_eq, h2v]
                  omega
                have hd2 : digVal '2' = 2 := by simp [digVal, h2v]
                have hd2d : isDig '2' = true := by decide
                simp [hb3, cb, hsep, hm1, hm2, hha, hmm, hw, hd2d, hd2]
                simp only [inRangeC, Bool.and_eq_true, decide_eq_true_eq] at hb3
                simp only [digVal]
                omega
              | false =>
                rw [if_neg (by simp [c3])]
                rw [if_neg ?hfive]
                case hfive =>
                  intro hf
                  simp only [Bool.and_eq_true, decide_eq_true_eq] at hf
                  obtain ⟨⟨⟨⟨⟨⟨⟨hA, hB⟩, hC⟩, hD⟩, hE⟩, hF⟩, hG⟩, hH⟩ := hf
                  have hA2 : 48 ≤ a.toNat ∧ a.toNat ≤ 57 := by
                    simpa [isDig, inRangeC] using hA
                  have hB2 : 48 ≤ b.toNat ∧ b.toNat ≤ 57 := by
                    simpa [isDig, inRangeC] using hB
                  have hca : ¬(48 ≤ a.toNat ∧ a.toNat ≤ 49) := by
                    intro hx
                    have hca2 : inRangeC a 48 49 = true := by
                      simp only [inRangeC, Bool.and_eq_true, decide_eq_true_eq]
                      omega
                    rw [hca2] at ca
                    exact absurd ca (by simp)
                  simp only [digVal] at hF
                  have ha50 : a.toNat = 50 := by omega
                  have h2n : ('2' : Char).toNat = 50 := by decide
                  have ha2 : a = '2' := char_eq_of_toNat (by rw [ha50, h2n])
                  subst ha2
                  have hc3 : inRangeC b 48 51 = false := by simpa using c3
                  simp [inRangeC] at hc3
                  rw [h2v] at hF
                  omega

theorem timeAtHead_eq_specTokAt (cs : List Char) : timeAtHead cs = specTokAt cs := by
  match cs with
  | [] => rfl
  | [a] => rfl
  | a :: b :: rest =>
    simp only [timeAtHead, specTokAt]
    cases cb : isDig b with
    | true =>
      have hbsep : (b = ':' || b = '.') = false := by
        have h1 : b ≠ ':' := by
          intro h
          subst h
          exact absurd cb (by decide)
        have h2 : b ≠ '.' := by
          intro h
          subst h
          exact absurd cb (by decide)
        simp [h1, h2]
      have halt1 : timeAlt1 a (b :: rest) = none := by
        have hsep0 : sepMinOk (b :: rest) = none := by
          rcases rest with _ | ⟨x, _ | ⟨y, r2⟩⟩
          · rfl
          · rfl
          · exact sepMinOk_neg (by simp [hbsep])
        simp [timeAlt1, hsep0, ite_self]
      have hfour : specTokFour (a :: b :: rest) = none := by
        rcases rest with _ | ⟨x, _ | ⟨y, r2⟩⟩
        · rfl
        · rfl
        · simp [specTokFour, hbsep]
      have heq := timeAlt23_eq_specTokFive a b rest cb
      rcases h2a : timeAlt2 a b rest with _ | r2
      · rw [h2a] at heq
        simp only [h2a, halt1, hfour]
        simp only at heq
        rcases h5 : specTokFive (a :: b :: rest) with _ | r5
        · rw [h5] at heq
          simp [heq]
        · rw [h5] at heq
          simp [heq]
      · rw [h2a] at heq
        simp only at heq
        simp only [h2a, ← heq]
    | false =>
      have halt2 : timeAlt2 a b rest = none := by simp [timeAlt2, cb]
      have halt3 : timeAlt3 a b rest = none := by
        have hb51 : inRangeC b 48 51 = false := by
          cases hq : inRangeC b 48 51 with
          | false => rfl
          | true =>
            have hd : isDig b = true := by
              simp only [isDig, inRangeC, Bool.and_eq_true, decide_eq_true_eq] at hq ⊢
              omega
            rw [hd] at cb
            exact absurd cb (by simp)
        simp [timeAlt3, hb51]
      have hfive : specTokFive (a :: b :: rest) = none := by
        rcases rest with _ | ⟨x, _ | ⟨y, _ | ⟨z, r2⟩⟩⟩
        · rfl
        · rfl
        · rfl
        · simp [specTokFive, cb]
      have heq := timeAlt1_eq_specTokFour a (b :: rest)
      simp only [halt2, halt3, hfive]
      rcases h1a : timeAlt1 a (b :: rest) with _ | r1
      · rw [h1a] at heq
        simp [heq.symm]
      · rw [h1a] at heq
        simp [heq.symm]

theorem searchGo_eq (l : List Char) : ∀ (pre : List Char) (pw : Bool),
    (timeSearchGo pre pw l).map
        (fun m => (⟨m.pre, normTok m.tok, m.hh, m.mm, m.post⟩ : TimeMatch))
      = specSearchGo pre pw l := by
  induction l with
  | nil => intro pre pw; rfl
  | cons c cs ih =>
    intro pre pw
    simp only [timeSearchGo, specSearchGo]
    cases pw with
    | true =>
      simp only [if_pos rfl]
      exact ih (c :: pre) (isWordChar c)
    | false =>
      rw [show (if (false : Bool) = true then none
          else timeAtHead (c :: cs)) = timeAtHead (c :: cs) from by simp]
      rw [show (if (false : Bool) = true then none
          else specTokAt (c :: cs)) = specTokAt (c :: cs) from by simp]
      rw [timeAtHead_eq_specTokAt]
      rcases hat : specTokAt (c :: cs) with _ | ⟨tok, hh, mm, post⟩
      · simp only [hat]
        exact ih (c :: pre) (isWordChar c)
      · simp only [hat]
        rfl

/-- Claim C5 amended.  The TIME_RE recognizer, with the token normalization
applied at its call sites (`.replace(".", ":")`), coincides exactly with the
spec-modelled recognizer `specSearch`: the leftmost word-boundary-delimited
substring with a one- or two-digit hour of value 0–23 and a two-digit minute
of value 00–59, separated by ':' or '.', wins; the result standardizes the
separator to ':' and does not zero-pad the hour (the token keeps the
length of the match). -/
theorem c5_amended (l : List Char) :
    (timeSearch l).map
        (fun m => (⟨m.pre, normTok m.tok, m.hh, m.mm, m.post⟩ : TimeMatch))
      = specSearch l :=
  searchGo_eq l [] false

/-- Claim C5 as stated is false on TIME_RE: the separator class is `[:.]`
only, so `7h30` — which has hour 7 and minute 30 separated by a literal
'h' — yields no match; and the normalization does not zero-pad the hour:
`7.30` is normalized to `7:30`, not `07:30`. -/
theorem c5_counterexample :
    timeSearch (cl "7h30") = none
      ∧ (timeSearch (cl "7.30")).map (fun m => normTok m.tok) = some (cl "7:30")
      ∧ cl "7:30" ≠ cl "07:30" :=
  ⟨by decide, by decide, by decide⟩

end LpsCrawler
